import Mathlib

/-!
Verification of the EGP portfolio-optimization core (single-index estimation,
EGP ranking optimizer, portfolio ledger, backtest loop) against its
natural-language specification.

The Python source is shallowly embedded over exact rationals (`ℚ`):

* pandas `Series` values become `List ℚ` (positionally aligned with a symbol
  list) or association lists `List (ℕ × ℚ)`;
* missing data (`NaN`) in input series becomes `Option ℚ` with `none` for a
  missing value;
* Python `raise` becomes `Except String`;
* machine floats become exact rationals, so tolerance clauses such as
  "within 1e-6" are settled exactly.

Divisions need care: Lean's total field division returns 0 on a zero
denominator, whereas Python float division by zero produces infinities or
NaN.  Each division in the embedding is therefore either (a) guarded by the
same test as in the source, (b) proved to have a nonzero denominator
whenever it is evaluated (`minPhase`), or (c) reachable with a zero
denominator, in which case the embedding returns an explicit marker
(`Option.none`) standing for "the source's float arithmetic produced a
weight series containing non-finite values (NaN/±inf) here" — see
`maxPhaseGo` and `optimize`.  Theorems about weight values are stated on
the finite (`some`) path, which the rational embedding reproduces exactly.
-/

namespace EGP

/-- Sum of absolute values of a list of rationals (`Series.abs().sum()`). -/
def sumAbs (w : List ℚ) : ℚ := (w.map (fun x => |x|)).sum

/-- Look up an association list (first match), as a Python `dict`/`Series`
indexing operation. -/
def alookup {β : Type} : List (ℕ × β) → ℕ → Option β
  | [], _ => none
  | (k, v) :: t, s => if s = k then some v else alookup t s

/-- Keys of an association list are pairwise distinct (Python dict keys and
pandas indexes in this codebase are unique). -/
def keysNodup {β : Type} (l : List (ℕ × β)) : Prop := (l.map Prod.fst).Nodup

/-- Decidability of `keysNodup` so witnesses can be checked by `decide`. -/
instance {β : Type} (l : List (ℕ × β)) : Decidable (keysNodup l) := by
  unfold keysNodup; infer_instance

/-- State of a constructed `EGPOptimizer`: the aligned (intersected) inputs.
Mirrors the fields set in `EGPOptimizer.__init__` after `.loc[common_symbols]`:
`symbols`, `expected_returns`, `betas`, `residual_vars`, `market_var`,
`risk_free_rate`.  The three series are stored positionally, aligned with
`symbols`. -/
structure EGPState where
  symbols : List ℕ
  expectedReturns : List ℚ
  betas : List ℚ
  residualVars : List ℚ
  marketVar : ℚ
  riskFree : ℚ
  deriving Repr, DecidableEq

/-- The common symbols of the three input series
(`expected_returns.index.intersection(betas.index).intersection(residual_vars.index)`);
kept in the order of the first series' index. -/
def commonSymbols (er betas rvars : List (ℕ × ℚ)) : List ℕ :=
  (er.map Prod.fst).filter (fun s => ((alookup betas s).isSome && (alookup rvars s).isSome))

/-- Restriction of a series to the common symbols (`series.loc[common]`),
as a positional list aligned with `common`. -/
def alignSeries (common : List ℕ) (xs : List (ℕ × ℚ)) : List ℚ :=
  common.map (fun s => (alookup xs s).getD 0)

/-- Embedding of `EGPOptimizer.__init__`: intersect the indexes, fail on an
empty intersection, align the three series on the common symbols, then fail
on any non-positive aligned residual variance or a non-positive market
variance.  `raise ValueError` becomes `Except.error`. -/
def egpInit (er betas rvars : List (ℕ × ℚ)) (mvar rf : ℚ) : Except String EGPState :=
  let common := commonSymbols er betas rvars
  if common = [] then .error "No common symbols found in inputs"
  else
    let st : EGPState :=
      { symbols := common
        expectedReturns := alignSeries common er
        betas := alignSeries common betas
        residualVars := alignSeries common rvars
        marketVar := mvar
        riskFree := rf }
    if st.residualVars.any (fun v => v ≤ 0) then
      .error "Non-positive residual variance"
    else if mvar ≤ 0 then
      .error "Market variance must be positive"
    else .ok st

/-- Validity of an optimizer state: what `__init__` guarantees on success.
The length equalities record that the three series are aligned with
`symbols`. -/
def EGPValid (st : EGPState) : Prop :=
  st.symbols ≠ [] ∧
  st.expectedReturns.length = st.symbols.length ∧
  st.betas.length = st.symbols.length ∧
  st.residualVars.length = st.symbols.length ∧
  (∀ v ∈ st.residualVars, 0 < v) ∧
  0 < st.marketVar

instance (st : EGPState) : Decidable (EGPValid st) := by
  unfold EGPValid; infer_instance

/-- Embedding of `EGPOptimizer.calculate_C0`:
`C0 = market_var * S / (1 + market_var * B)` with
`S = Σ (Ri - Rf) * βi / σ²i` and `B = Σ βi² / σ²i`; raises when the
denominator is zero. -/
def calcC0 (st : EGPState) : Except String ℚ :=
  let S := ((st.expectedReturns.zip st.betas).zip st.residualVars).map
      (fun p => (p.1.1 - st.riskFree) * p.1.2 / p.2) |>.sum
  let B := (st.betas.zip st.residualVars).map (fun p => p.1 ^ 2 / p.2) |>.sum
  let denom := 1 + st.marketVar * B
  if denom = 0 then .error "Denominator is zero in C0 calculation"
  else .ok (st.marketVar * S / denom)

/-- Embedding of `EGPOptimizer.calculate_Z_values` given the computed `C0`:
`Z_i = (Ri - Rf)/σ²i - (βi/σ²i) * C0`. -/
def zValues (st : EGPState) (c0 : ℚ) : List ℚ :=
  ((st.expectedReturns.zip st.betas).zip st.residualVars).map
    (fun p => (p.1.1 - st.riskFree) / p.2 - p.1.2 / p.2 * c0)

/-- Body of the max-weight phase of one pass of
`_apply_weight_constraints`.  Weights above the bound are clipped to it and
the excess is redistributed proportionally over the stocks strictly below
the bound (the code computes `free_stocks` after the clipping, so a clipped
stock is never free and a non-clipped stock keeps its original value; hence
free ↔ value < bound).
The proportional share is `excess * (w / freeSum)` (source lines 241–242).
When the free set is nonempty but its total is exactly 0 — all free weights
zero, or cancelling positives and negatives — the source's float division
produces `0/0 = NaN` (resp. `x/0 = ±inf`) and the weight vector is poisoned
with non-finite entries from this point on; the embedding returns `none`
for the weight list on that path (there is no rational image of a
non-finite series) and embeds the finite path exactly. -/
def maxRedistribute (m : ℚ) (w : List ℚ) : Option (List ℚ) :=
  let excess := ((w.filter (fun x => m < x)).map (fun x => x - m)).sum
  let freeSum := (w.filter (fun x => x < m)).sum
  let hasFree := w.any (fun x => x < m)
  if hasFree ∧ freeSum = 0 then none
  else some (w.map (fun x =>
      if m < x then m
      else if x < m ∧ hasFree then x + excess * (x / freeSum)
      else x))

/-- The `over_max.any()` gate of the max phase: fire (clip and
redistribute) exactly when some weight exceeds the bound. -/
def maxPhaseGo (m : ℚ) (w : List ℚ) : Option (List ℚ) × Bool :=
  if w.any (fun x => m < x) then (maxRedistribute m w, true)
  else (some w, false)

/-- The max phase fires only when a max bound was supplied
(`if max_weight is not None`). -/
def maxPhase : Option ℚ → List ℚ → Option (List ℚ) × Bool
  | none, w => (some w, false)
  | some m, w => maxPhaseGo m w

/-- Min-weight phase of one pass of `_apply_weight_constraints` (applied only
when a min bound is set and shorting is disallowed).  Positive weights
strictly below the bound are raised to it and the deficit is removed
proportionally from the stocks strictly above the bound (again, free stocks
are computed after the raise, so free ↔ value > bound).  Unlike the max
phase, the total `ℚ` division here always agrees with the source's float
division: the phase fires only when some weight satisfies `0 < x < mn`, so
`mn > 0`, and every donor in the free set then exceeds `mn > 0`, making
`freeSum` strictly positive whenever a free stock exists (and the division
is not evaluated otherwise). -/
def minPhase (mn : ℚ) (w : List ℚ) : List ℚ × Bool :=
  if w.any (fun x => 0 < x ∧ x < mn) then
    let deficit := ((w.filter (fun x => 0 < x ∧ x < mn)).map (fun x => mn - x)).sum
    let freeSum := (w.filter (fun x => mn < x)).sum
    let hasFree := w.any (fun x => mn < x)
    (w.map (fun x =>
        if 0 < x ∧ x < mn then mn
        else if mn < x ∧ hasFree then x - deficit * (x / freeSum)
        else x),
      true)
  else (w, false)

/-- One iteration of the fixed-point loop in `_apply_weight_constraints`:
max phase, then (if a min bound is set and shorting is disallowed) min
phase; `modified` is the disjunction of the two phase flags.  A `none` from
the max phase (non-finite weights) is absorbing. -/
def constraintPass (maxW minW : Option ℚ) (allowShort : Bool) (w : List ℚ) :
    Option (List ℚ) × Bool :=
  let r1 := maxPhase maxW w
  match r1.1 with
  | none => (none, r1.2)
  | some w1 =>
    let r2 :=
      match minW, allowShort with
      | some mn, false => minPhase mn w1
      | _, _ => (w1, false)
    (some r2.1, r1.2 || r2.2)

/-- The capped fixed-point loop (`for iteration in range(100): ...; if not
modified: break`), written with explicit fuel; `none` (the source's
non-finite weight vector) stops the embedding. -/
def constraintLoop (maxW minW : Option ℚ) (allowShort : Bool) :
    ℕ → List ℚ → Option (List ℚ)
  | 0, w => some w
  | k + 1, w =>
    let r := constraintPass maxW minW allowShort w
    match r.1 with
    | none => none
    | some w1 =>
      if r.2 then constraintLoop maxW minW allowShort k w1 else some w1

/-- Embedding of `EGPOptimizer._apply_weight_constraints`: at most 100
passes; `none` marks the runs on which the source's projected vector
contains non-finite entries. -/
def applyWeightConstraints (maxW minW : Option ℚ) (allowShort : Bool)
    (w : List ℚ) : Option (List ℚ) :=
  constraintLoop maxW minW allowShort 100 w

/-- The Z values after the short-sale clipping step of `optimize`
(`Z_values.clip(lower=0)` when shorting is disallowed). -/
def clippedZ (st : EGPState) (c0 : ℚ) (allowShort : Bool) : List ℚ :=
  if allowShort then zValues st c0 else (zValues st c0).map (fun z => max z 0)

/-- The raw normalized weights `w_i = Z_i / Σ|Z_j|` of `optimize` (before
constraint projection), defined on the clipped Z vector. -/
def rawWeights (zc : List ℚ) : List ℚ := zc.map (fun z => z / sumAbs zc)

/-- Embedding of `EGPOptimizer.optimize`.  Returns the weight values
(positionally aligned with `st.symbols`, as the returned `pd.Series`) and a
Boolean recording whether the degenerate-ranking warning
("All Z values are zero. Returning equal weights.") was emitted.  On the
degenerate branch the function returns equal weights `1/n_stocks` over all
aligned symbols without touching the constraint code; otherwise it
normalizes Z, optionally projects on the box constraints, and renormalizes
by the absolute sum.  A `none` weight payload marks the runs on which the
source returns a series containing non-finite entries (NaN/±inf): either
the constrained projection redistributed over a free set with zero total
(`maxPhaseGo`), or the projected vector is all-zero and the final
renormalization divides `0/0` (line 198).  On the `some` path every float
the source computes is a plain rational and is embedded exactly. -/
def optimize (st : EGPState) (allowShort : Bool) (maxW minW : Option ℚ) :
    Except String (Option (List ℚ) × Bool) :=
  match calcC0 st with
  | .error e => .error e
  | .ok c0 =>
    let zc := clippedZ st c0 allowShort
    if sumAbs zc = 0 then
      .ok (some (st.symbols.map (fun _ => 1 / (st.symbols.length : ℚ))), true)
    else
      let raw := rawWeights zc
      match (if maxW.isSome || minW.isSome then
          applyWeightConstraints maxW minW allowShort raw
        else some raw) with
      | none => .ok (none, false)
      | some w1 =>
        if sumAbs w1 = 0 then .ok (none, false)
        else .ok (some (w1.map (fun x => x / sumAbs w1)), false)

/-- Iterating the constraint pass a fixed number of times (used to state how
many passes the capped loop actually performed); `none` is absorbing, as in
the loop. -/
def passIterate (maxW minW : Option ℚ) (allowShort : Bool) :
    ℕ → List ℚ → Option (List ℚ)
  | 0, w => some w
  | k + 1, w =>
    match (constraintPass maxW minW allowShort w).1 with
    | none => none
    | some w1 => passIterate maxW minW allowShort k w1

/-! ## Portfolio ledger (`src/models/portfolio.py`, class `Portfolio`)

Symbols are `ℕ`, holdings are integer share counts, prices are
`Option ℚ`-valued (a `none` price models a NaN / missing price).  The class
is embedded as the state record `Ledger` plus pure state-passing functions.
The `weights` attribute and the rebalance-date list are bookkeeping not
touched by any claim and are omitted. -/

/-- One entry of the `trades` dict built by `Portfolio.rebalance`:
`{'quantity': ..., 'price': ..., 'value': ..., 'cost': ...}` keyed by
symbol. -/
structure Trade where
  sym : ℕ
  qty : ℤ
  price : ℚ
  value : ℚ
  cost : ℚ
  deriving Repr, DecidableEq

/-- Mutable state of a `Portfolio`: initial capital, transaction-cost rate,
cash, and integer holdings per symbol. -/
structure Ledger where
  initialCapital : ℚ
  transactionCost : ℚ
  cash : ℚ
  holdings : List (ℕ × ℤ)
  deriving Repr, DecidableEq

/-- Python `int(x)` on a float: truncation toward zero. -/
def ratTrunc (q : ℚ) : ℤ := if 0 ≤ q then ⌊q⌋ else ⌈q⌉

/-- A symbol's valid price: present in the price index and not NaN
(`symbol in prices.index and not pd.isna(prices[symbol])`). -/
def priceOf (prices : List (ℕ × Option ℚ)) (s : ℕ) : Option ℚ :=
  (alookup prices s).bind id

/-- `self.holdings.get(symbol, 0)`. -/
def qtyOf (h : List (ℕ × ℤ)) (s : ℕ) : ℤ := (alookup h s).getD 0

/-- `self.holdings[symbol] = qty`: replace the entry if the key is present,
else add it. -/
def setQty (h : List (ℕ × ℤ)) (s : ℕ) (q : ℤ) : List (ℕ × ℤ) :=
  if (alookup h s).isSome then
    h.map (fun e => if e.1 = s then (s, q) else e)
  else h ++ [(s, q)]

/-- Value of the held positions at the given prices; a holding whose price
is missing contributes 0 (the loop in `get_portfolio_value` skips it). -/
def holdingsValue (h : List (ℕ × ℤ)) (prices : List (ℕ × Option ℚ)) : ℚ :=
  (h.map (fun e =>
    match priceOf prices e.1 with
    | some pr => (e.2 : ℚ) * pr
    | none => 0)).sum

/-- Embedding of `Portfolio.get_portfolio_value`. -/
def getPortfolioValue (p : Ledger) (prices : List (ℕ × Option ℚ)) : ℚ :=
  p.cash + holdingsValue p.holdings prices

/-- The `target_quantities` dict: for each target asset with a valid price,
`int(target_weight * portfolio_value / price)`; assets with a missing price
are skipped.  The looked-up price is carried along (the source re-reads
`prices[symbol]`, which is the same value). -/
def targetQuantities (tw : List (ℕ × ℚ)) (prices : List (ℕ × Option ℚ))
    (pv : ℚ) : List (ℕ × ℚ × ℤ) :=
  tw.filterMap (fun e => (priceOf prices e.1).map
    (fun pr => (e.1, pr, ratTrunc (e.2 * pv / pr))))

/-- The trade loop of `Portfolio.rebalance`: for each target quantity,
compute the delta against the current holding; when it is nonzero, record a
trade with signed notional `qty * price` and cost
`|qty| * price * transaction_cost`, and set the holding to the target
quantity. -/
def applyTrades (rate : ℚ) : List (ℕ × ℚ × ℤ) → List (ℕ × ℤ) →
    List (ℕ × ℤ) × List Trade
  | [], h => (h, [])
  | (s, pr, q) :: rest, h =>
    let cur := qtyOf h s
    let d := q - cur
    if d = 0 then applyTrades rate rest h
    else
      let t : Trade := ⟨s, d, pr, (d : ℚ) * pr, |(d : ℚ)| * pr * rate⟩
      let res := applyTrades rate rest (setQty h s q)
      (res.1, t :: res.2)

/-- The dict returned by `Portfolio.rebalance`. -/
structure RebalanceEvent where
  trades : List Trade
  totalCost : ℚ
  portfolioValue : ℚ
  nTrades : ℕ
  deriving Repr, DecidableEq

/-- Embedding of `Portfolio.rebalance`: value the book, compute target
quantities over valid-price targets, run the trade loop, then decrement
cash by the summed signed notionals plus the summed costs. -/
def rebalance (p : Ledger) (tw : List (ℕ × ℚ)) (prices : List (ℕ × Option ℚ)) :
    Ledger × RebalanceEvent :=
  let pv := getPortfolioValue p prices
  let tq := targetQuantities tw prices pv
  let res := applyTrades p.transactionCost tq p.holdings
  let totalCost := (res.2.map Trade.cost).sum
  let cashFlow := (res.2.map Trade.value).sum
  ({ p with cash := p.cash - (cashFlow + totalCost), holdings := res.1 },
    ⟨res.2, totalCost, pv, res.2.length⟩)

/-- One record appended by `Portfolio.record_state`: value, cash, and the
cumulative return versus initial capital. -/
structure StateRecord where
  value : ℚ
  cash : ℚ
  rets : ℚ
  deriving Repr, DecidableEq

/-- Embedding of `Portfolio.record_state` (the record that is appended to
`self.history`; the return is `get_returns`, cumulative vs initial
capital). -/
def recordState (p : Ledger) (prices : List (ℕ × Option ℚ)) : StateRecord :=
  let v := getPortfolioValue p prices
  ⟨v, p.cash, (v - p.initialCapital) / p.initialCapital⟩

/-! ## Single-index model (`src/models/single_index_model.py`)

Asset ids are column positions; a `none` return is a NaN. -/

/-- Mean of a list (pandas `.mean()`); total `ℚ` division, so 0 on an empty
list (pandas would give NaN, unreachable in the guarded uses below). -/
def listMean (l : List ℚ) : ℚ := l.sum / l.length

/-- Parameters stored per asset by `SingleIndexModel.fit`.  The source also
stores `std_error_beta = sqrt(residual_var / Σ(x-x̄)²)` and
`t_stat_beta = beta / std_error_beta`; square roots do not exist in `ℚ`, so
the embedding keeps the square `stdErrBetaSq` instead, and omits the
p-value (a t-distribution tail no claim touches). -/
structure FitParams where
  alpha : ℚ
  beta : ℚ
  residualVar : ℚ
  rSquared : ℚ
  stdErrBetaSq : ℚ
  nObs : ℕ
  deriving Repr, DecidableEq

/-- The (y, x) pairs with both coordinates present, in order: the
`mask = ~(isnan(y) | isnan(x))` step at the top of the per-asset loop of
`fit`. -/
def cleanPairs (ys xs : List (Option ℚ)) : List (ℚ × ℚ) :=
  (ys.zip xs).filterMap (fun p => p.1.bind (fun y => p.2.map (fun x => (y, x))))

/-- `scipy.stats.linregress` on the cleaned pairs: slope and intercept of
the OLS fit of y on x, plus r².  It raises exactly when all x values are
identical (for the n ≥ 10 call sites this is `Σ(x-x̄)² = 0`); r² is 0 when
the y values are constant (scipy's zero-denominator convention). -/
def linregress (ps : List (ℚ × ℚ)) : Except String (ℚ × ℚ × ℚ) :=
  let xs := ps.map Prod.snd
  let ys := ps.map Prod.fst
  let xm := listMean xs
  let ym := listMean ys
  let ssx := (xs.map (fun x => (x - xm) ^ 2)).sum
  let ssy := (ys.map (fun y => (y - ym) ^ 2)).sum
  let sxy := (ps.map (fun p => (p.2 - xm) * (p.1 - ym))).sum
  if ssx = 0 then
    .error "Cannot calculate a linear regression if all x values are identical"
  else
    let slope := sxy / ssx
    let intercept := ym - slope * xm
    let rsq := if ssy = 0 then 0 else sxy ^ 2 / (ssx * ssy)
    .ok (slope, intercept, rsq)

/-- Fitting one asset in `SingleIndexModel.fit`: drop non-finite pairs; if
fewer than 10 observations remain, skip the asset (`.ok none`, the warning
path); otherwise regress and store the parameters (residual variance uses
the unbiased n−2 denominator; `stdErrBetaSq` is
`residual_var / Σ(x-x̄)²`, the square of the stored standard error). -/
def fitAsset (ys xs : List (Option ℚ)) : Except String (Option FitParams) :=
  let ps := cleanPairs ys xs
  if ps.length < 10 then .ok none
  else
    match linregress ps with
    | .error e => .error e
    | .ok (slope, intercept, rsq) =>
      let residuals := ps.map (fun p => p.1 - (intercept + slope * p.2))
      let residualVar := (residuals.map (fun r => r ^ 2)).sum / ((ps.length : ℚ) - 2)
      let xs2 := ps.map Prod.snd
      let xm := listMean xs2
      let ssx := (xs2.map (fun x => (x - xm) ^ 2)).sum
      .ok (some ⟨intercept, slope, residualVar, rsq, residualVar / ssx, ps.length⟩)

/-- The per-asset loop of `SingleIndexModel.fit` over the stock columns,
starting at column id `i`: a skipped asset goes to the warning list and is
absent from the results; a raising regression aborts the whole fit (the
loop body is not wrapped in any try/except). -/
def fitLoop (mkt : List (Option ℚ)) :
    ℕ → List (List (Option ℚ)) → Except String (List (ℕ × FitParams) × List ℕ)
  | _, [] => .ok ([], [])
  | i, col :: rest =>
    match fitAsset col mkt with
    | .error e => .error e
    | .ok none =>
      match fitLoop mkt (i + 1) rest with
      | .error e => .error e
      | .ok rw2 => .ok (rw2.1, i :: rw2.2)
    | .ok (some p) =>
      match fitLoop mkt (i + 1) rest with
      | .error e => .error e
      | .ok rw2 => .ok ((i, p) :: rw2.1, rw2.2)

/-- Embedding of `SingleIndexModel.get_expected_returns`: raises when no
results are available; otherwise returns `alpha_i + beta_i * market_mean`
per fitted asset.  The `risk_free_rate` parameter is accepted exactly as in
the source — and, exactly as in the source, never used. -/
def getExpectedReturns (results : List (ℕ × FitParams)) (marketMean : ℚ)
    (_riskFreeRate : ℚ) : Except String (List (ℕ × ℚ)) :=
  if results = [] then .error "No results available. Run fit() first."
  else .ok (results.map (fun e => (e.1, e.2.alpha + e.2.beta * marketMean)))

/-! ## Backtester (`src/analysis/backtesting.py`)

Dates are row indexes.  The calendar logic of `_get_rebalance_dates`
(pandas period arithmetic) is out of scope for the claims; the rebalance
schedule enters as a precomputed list of Boolean membership flags, one per
date. -/

/-- Concrete market series for the fit witness: ten alternating values. -/
def witMkt : List (Option ℚ) :=
  [some 0, some 2, some 0, some 2, some 0, some 2, some 0, some 2, some 0, some 2]

/-- Concrete asset column that tracks the market exactly (ten valid
observations, a perfect fit). -/
def witCol0 : List (Option ℚ) :=
  [some 0, some 2, some 0, some 2, some 0, some 2, some 0, some 2, some 0, some 2]

/-- Concrete asset column with only five valid observations (the rest
NaN), so the asset is skipped. -/
def witCol1 : List (Option ℚ) :=
  [some 0, some 1, some 0, some 1, some 0, none, none, none, none, none]

/-- The parameters `fit` computes for `witCol0` against `witMkt`: a perfect
fit with slope 1, intercept 0, zero residual variance, r² = 1. -/
def witParams : FitParams := ⟨0, 1, 0, 1, 0, 10⟩

/-! ### Basic lemmas about `sumAbs` -/

theorem sumAbs_nonneg (w : List ℚ) : 0 ≤ sumAbs w := by
  unfold sumAbs
  apply List.sum_nonneg
  intro x hx
  obtain ⟨y, _, rfl⟩ := List.mem_map.mp hx
  exact abs_nonneg y

theorem sumAbs_pos_of_mem {w : List ℚ} {x : ℚ} (hx : x ∈ w) (hpos : 0 < x) :
    0 < sumAbs w := by
  have habs : |x| ∈ w.map (fun y => |y|) := List.mem_map_of_mem _ hx
  have hle : |x| ≤ sumAbs w := by
    unfold sumAbs
    apply List.single_le_sum _ _ habs
    intro y hy
    obtain ⟨z, _, rfl⟩ := List.mem_map.mp hy
    exact abs_nonneg z
  calc 0 < x := hpos
    _ ≤ |x| := le_abs_self x
    _ ≤ sumAbs w := hle

theorem sumAbs_map_div (w : List ℚ) (s : ℚ) :
    sumAbs (w.map (fun x => x / s)) = sumAbs w / |s| := by
  unfold sumAbs
  induction w with
  | nil => simp
  | cons a t ih =>
    simp only [List.map_cons, List.sum_cons, ih, abs_div]
    ring

theorem sumAbs_const {α : Type} (l : List α) (c : ℚ) :
    sumAbs (l.map (fun _ => c)) = (l.length : ℚ) * |c| := by
  unfold sumAbs
  induction l with
  | nil => simp
  | cons a t ih =>
    simp only [List.map_cons, List.sum_cons, ih, List.length_cons]
    push_cast
    ring

/-- Renormalizing by the absolute sum yields absolute sum one, as long as the
absolute sum was nonzero. -/
theorem sumAbs_normalize {w : List ℚ} (h : sumAbs w ≠ 0) :
    sumAbs (w.map (fun x => x / sumAbs w)) = 1 := by
  have hpos : 0 < sumAbs w := lt_of_le_of_ne (sumAbs_nonneg w) (Ne.symm h)
  rw [sumAbs_map_div, abs_of_pos hpos, div_self h]

/-! ### Lemmas about the constraint projection pass -/

theorem constraintPass_none_min (mw : Option ℚ) (ash : Bool) (w : List ℚ) :
    constraintPass mw none ash w = ((maxPhase mw w).1, (maxPhase mw w).2) := by
  cases h : (maxPhase mw w).1 <;> simp [constraintPass, h]

theorem constraintPass_allow_short (mw mn : Option ℚ) (w : List ℚ) :
    constraintPass mw mn true w = ((maxPhase mw w).1, (maxPhase mw w).2) := by
  rcases mn with _ | n <;> cases h : (maxPhase mw w).1 <;> simp [constraintPass, h]

theorem constraintPass_with_min (mw : Option ℚ) (n : ℚ) (w : List ℚ) :
    constraintPass mw (some n) false w =
      (match (maxPhase mw w).1 with
       | none => (none, (maxPhase mw w).2)
       | some w1 =>
         (some (minPhase n w1).1, (maxPhase mw w).2 || (minPhase n w1).2)) := by
  cases h : (maxPhase mw w).1 <;> simp [constraintPass, h]

theorem maxPhase_not_modified {mw : Option ℚ} {w : List ℚ} {ow : Option (List ℚ)}
    (h : maxPhase mw w = (ow, false)) : ow = some w := by
  cases mw with
  | none => exact (congrArg Prod.fst h).symm
  | some m =>
    rw [show maxPhase (some m) w = maxPhaseGo m w from rfl] at h
    unfold maxPhaseGo at h
    split at h
    · exact absurd (congrArg Prod.snd h) (by simp)
    · exact (congrArg Prod.fst h).symm

theorem minPhase_not_modified {mn : ℚ} {w w' : List ℚ}
    (h : minPhase mn w = (w', false)) : w' = w := by
  unfold minPhase at h
  split at h
  · exact absurd (congrArg Prod.snd h) (by simp)
  · exact (congrArg Prod.fst h).symm

theorem constraintPass_not_modified {mw mn : Option ℚ} {ash : Bool}
    {w : List ℚ} {ow : Option (List ℚ)}
    (h : constraintPass mw mn ash w = (ow, false)) : ow = some w := by
  rcases mn with _ | n
  · rw [constraintPass_none_min] at h
    exact maxPhase_not_modified (Prod.ext (congrArg Prod.fst h) (congrArg Prod.snd h))
  · cases ash with
    | true =>
      rw [constraintPass_allow_short] at h
      exact maxPhase_not_modified (Prod.ext (congrArg Prod.fst h) (congrArg Prod.snd h))
    | false =>
      rw [constraintPass_with_min] at h
      rcases hmax : (maxPhase mw w).1 with _ | w1
      · simp only [hmax] at h
        rw [Prod.mk.injEq] at h
        exact absurd (maxPhase_not_modified (Prod.ext hmax h.2)) (by simp)
      · simp only [hmax] at h
        rw [Prod.mk.injEq] at h
        obtain ⟨h1, h2⟩ := h
        rw [Bool.or_eq_false_iff] at h2
        have hw1 : w1 = w := by
          have hmp := maxPhase_not_modified (Prod.ext hmax h2.1)
          simpa using hmp
        subst hw1
        have hminw : (minPhase n w1).1 = w1 :=
          minPhase_not_modified (Prod.ext rfl h2.2)
        rw [← h1, hminw]

/-! ### Success and validity of construction -/

theorem egpInit_ok_valid {er b rv : List (ℕ × ℚ)} {mv rf : ℚ} {st : EGPState}
    (h : egpInit er b rv mv rf = .ok st) : EGPValid st := by
  unfold egpInit at h
  simp only [] at h
  split at h
  · cases h
  next hcommon =>
    split at h
    next hvars => cases h
    next hvars =>
      split at h
      next hmv => cases h
      next hmv =>
        cases h
        refine ⟨hcommon, ?_, ?_, ?_, ?_, not_le.mp hmv⟩
        · simp [alignSeries]
        · simp [alignSeries]
        · simp [alignSeries]
        · intro v hv
          by_contra hcon
          exact hvars (List.any_eq_true.mpr ⟨v, hv, by simpa using hcon⟩)

theorem calcC0_isOk {st : EGPState} (h : EGPValid st) :
    ∃ c0, calcC0 st = .ok c0 := by
  obtain ⟨-, -, -, -, hvars, hmv⟩ := h
  have hB : 0 ≤ ((st.betas.zip st.residualVars).map (fun p => p.1 ^ 2 / p.2)).sum := by
    apply List.sum_nonneg
    intro x hx
    obtain ⟨p, hp, rfl⟩ := List.mem_map.mp hx
    exact div_nonneg (sq_nonneg _) (le_of_lt (hvars p.2 (List.of_mem_zip hp).2))
  have hden : (1 : ℚ) + st.marketVar *
      ((st.betas.zip st.residualVars).map (fun p => p.1 ^ 2 / p.2)).sum ≠ 0 := by
    have : 0 < (1 : ℚ) + st.marketVar *
        ((st.betas.zip st.residualVars).map (fun p => p.1 ^ 2 / p.2)).sum :=
      add_pos_of_pos_of_nonneg one_pos (mul_nonneg (le_of_lt hmv) hB)
    exact ne_of_gt this
  refine ⟨st.marketVar * (((st.expectedReturns.zip st.betas).zip st.residualVars).map
      (fun p => (p.1.1 - st.riskFree) * p.1.2 / p.2)).sum /
      (1 + st.marketVar *
        ((st.betas.zip st.residualVars).map (fun p => p.1 ^ 2 / p.2)).sum), ?_⟩
  simp [calcC0, hden]

/-! ### Evaluation equations for `optimize` -/

theorem optimize_eq_degenerate {st : EGPState} {c0 : ℚ} {ash : Bool}
    (hc0 : calcC0 st = .ok c0) (hz : sumAbs (clippedZ st c0 ash) = 0)
    (mw mn : Option ℚ) :
    optimize st ash mw mn =
      .ok (some (st.symbols.map (fun _ => 1 / (st.symbols.length : ℚ))), true) := by
  simp [optimize, hc0, hz]

theorem optimize_eq_normal {st : EGPState} {c0 : ℚ} {ash : Bool}
    (hc0 : calcC0 st = .ok c0) (hz : sumAbs (clippedZ st c0 ash) ≠ 0)
    (mw mn : Option ℚ) :
    optimize st ash mw mn =
      (match (if mw.isSome || mn.isSome then
          applyWeightConstraints mw mn ash (rawWeights (clippedZ st c0 ash))
        else some (rawWeights (clippedZ st c0 ash))) with
       | none => .ok (none, false)
       | some w1 =>
         if sumAbs w1 = 0 then .ok (none, false)
         else .ok (some (w1.map (fun x => x / sumAbs w1)), false)) := by
  simp [optimize, hc0, hz]

/-! ### Nonnegativity through the projection (no min bound) -/

theorem maxRedistribute_nonneg {m : ℚ} (hm : 0 ≤ m) {w : List ℚ}
    (hw : ∀ x ∈ w, 0 ≤ x) {v : List ℚ}
    (hv : maxRedistribute m w = some v) : ∀ x ∈ v, 0 ≤ x := by
  simp only [maxRedistribute] at hv
  split at hv
  · cases hv
  · rw [Option.some.injEq] at hv
    subst hv
    intro x hx
    obtain ⟨y, hy, rfl⟩ := List.mem_map.mp hx
    by_cases h1 : m < y
    · rw [if_pos h1]
      exact hm
    · by_cases h2 : y < m ∧ (w.any (fun x => x < m)) = true
      · have hexcess : 0 ≤ ((w.filter (fun x => m < x)).map (fun x => x - m)).sum := by
          apply List.sum_nonneg
          intro z hz
          obtain ⟨u, hu, rfl⟩ := List.mem_map.mp hz
          have hum : m < u := by simpa using List.of_mem_filter hu
          linarith
        have hfree : 0 ≤ (w.filter (fun x => x < m)).sum := by
          apply List.sum_nonneg
          intro z hz
          exact hw z (List.mem_of_mem_filter hz)
        have hy0 : 0 ≤ y := hw y hy
        have hmul : 0 ≤ ((w.filter (fun x => m < x)).map (fun x => x - m)).sum *
            (y / (w.filter (fun x => x < m)).sum) :=
          mul_nonneg hexcess (div_nonneg hy0 hfree)
        rw [if_neg h1, if_pos h2]
        linarith
      · rw [if_neg h1, if_neg h2]
        exact hw y hy

theorem maxPhase_nonneg {mw : Option ℚ} (hm : ∀ m, mw = some m → 0 ≤ m)
    {w : List ℚ} (hw : ∀ x ∈ w, 0 ≤ x) {v : List ℚ}
    (hv : (maxPhase mw w).1 = some v) : ∀ x ∈ v, 0 ≤ x := by
  cases mw with
  | none =>
    have hwv : w = v := by simpa [maxPhase] using hv
    rw [← hwv]
    exact hw
  | some m =>
    rw [show maxPhase (some m) w = maxPhaseGo m w from rfl] at hv
    unfold maxPhaseGo at hv
    split at hv
    · exact maxRedistribute_nonneg (hm m rfl) hw hv
    · have hwv : w = v := by simpa using hv
      rw [← hwv]
      exact hw

theorem constraintLoop_nonneg {mw : Option ℚ} {ash : Bool}
    (hm : ∀ m, mw = some m → 0 ≤ m) :
    ∀ (k : ℕ) (w : List ℚ), (∀ x ∈ w, 0 ≤ x) →
      ∀ v, constraintLoop mw none ash k w = some v → ∀ x ∈ v, 0 ≤ x := by
  intro k
  induction k with
  | zero =>
    intro w hw v hv
    have hwv : w = v := by simpa [constraintLoop] using hv
    rw [← hwv]
    exact hw
  | succ k ih =>
    intro w hw v hv
    rcases hp : constraintPass mw none ash w with ⟨ow, md⟩
    rcases ow with _ | w'
    · rw [show constraintLoop mw none ash (k + 1) w = none from by
        simp [constraintLoop, hp]] at hv
      cases hv
    · have hw' : ∀ x ∈ w', 0 ≤ x := by
        have hcp := constraintPass_none_min mw ash w
        rw [hp] at hcp
        exact maxPhase_nonneg hm hw (congrArg Prod.fst hcp).symm
      cases md with
      | true =>
        rw [show constraintLoop mw none ash (k + 1) w =
            constraintLoop mw none ash k w' from by simp [constraintLoop, hp]] at hv
        exact ih w' hw' v hv
      | false =>
        rw [show constraintLoop mw none ash (k + 1) w = some w' from by
          simp [constraintLoop, hp]] at hv
        have hwv : w' = v := by simpa using hv
        rw [← hwv]
        exact hw'

/-! ### Bounds hold at a converged (unmodified) pass -/

theorem maxPhaseGo_snd_false {m : ℚ} {w : List ℚ}
    (h : (maxPhaseGo m w).2 = false) : ∀ x ∈ w, x ≤ m := by
  unfold maxPhaseGo at h
  split at h
  · cases h
  next hany =>
    intro x hx
    by_contra hcon
    exact hany (List.any_eq_true.mpr ⟨x, hx, by simpa using not_le.mp hcon⟩)

theorem minPhase_snd_false {mn : ℚ} {w : List ℚ}
    (h : (minPhase mn w).2 = false) : ∀ x ∈ w, ¬(0 < x ∧ x < mn) := by
  unfold minPhase at h
  split at h
  · cases h
  next hany =>
    intro x hx
    by_contra hcon
    exact hany (List.any_eq_true.mpr ⟨x, hx, by simpa using hcon⟩)

/-- If the pass does not modify a weight vector (the loop's early-stop
condition, on the finite path), then the vector satisfies the supplied box
bounds exactly: nothing exceeds the max bound, and (without shorting) no
positive weight sits below the min bound. -/
theorem constraintPass_fixpoint_bounds {mw mn : Option ℚ} {ash : Bool}
    {w : List ℚ} (h : constraintPass mw mn ash w = (some w, false)) :
    (∀ m, mw = some m → ∀ x ∈ w, x ≤ m) ∧
    (∀ n, mn = some n → ash = false → ∀ x ∈ w, ¬(0 < x ∧ x < n)) := by
  have hmaxpart : (maxPhase mw w).2 = false → ∀ m, mw = some m → ∀ x ∈ w, x ≤ m := by
    intro hsnd m hmw
    subst hmw
    exact maxPhaseGo_snd_false hsnd
  rcases mn with _ | n
  · rw [constraintPass_none_min] at h
    refine ⟨hmaxpart (congrArg Prod.snd h), ?_⟩
    intro n hn
    cases hn
  · cases ash with
    | true =>
      rw [constraintPass_allow_short] at h
      refine ⟨hmaxpart (congrArg Prod.snd h), ?_⟩
      intro n2 hn2 hash
      cases hash
    | false =>
      rw [constraintPass_with_min] at h
      rcases hmax : (maxPhase mw w).1 with _ | w1
      · simp only [hmax] at h
        rw [Prod.mk.injEq] at h
        exact absurd (maxPhase_not_modified (Prod.ext hmax h.2)) (by simp)
      · simp only [hmax] at h
        rw [Prod.mk.injEq] at h
        obtain ⟨h1, h2⟩ := h
        rw [Bool.or_eq_false_iff] at h2
        have hw1 : w1 = w := by
          have hmp := maxPhase_not_modified (Prod.ext hmax h2.1)
          simpa using hmp
        subst hw1
        refine ⟨fun m hmw => hmaxpart h2.1 m hmw, ?_⟩
        intro n2 hn2 hash
        cases hn2
        exact minPhase_snd_false h2.2

/-! ### The loop performs at most 100 passes, stopping early -/

theorem constraintLoop_eq_iterate (mw mn : Option ℚ) (ash : Bool) :
    ∀ (f : ℕ) (w : List ℚ), ∃ k ≤ f,
      constraintLoop mw mn ash f w = passIterate mw mn ash k w := by
  intro f
  induction f with
  | zero => exact fun w => ⟨0, le_refl 0, rfl⟩
  | succ f ih =>
    intro w
    rcases hp : constraintPass mw mn ash w with ⟨ow, md⟩
    rcases ow with _ | w'
    · refine ⟨1, Nat.succ_le_succ (Nat.zero_le f), ?_⟩
      rw [show constraintLoop mw mn ash (f + 1) w = none from by
          simp [constraintLoop, hp],
        show passIterate mw mn ash 1 w = none from by simp [passIterate, hp]]
    · cases md with
      | false =>
        refine ⟨0, Nat.zero_le _, ?_⟩
        have hww : w' = w := by
          have hnm := constraintPass_not_modified hp
          simpa using hnm
        subst hww
        simp [constraintLoop, hp, passIterate]
      | true =>
        obtain ⟨k, hk, hEq⟩ := ih w'
        refine ⟨k + 1, Nat.succ_le_succ hk, ?_⟩
        rw [show constraintLoop mw mn ash (f + 1) w =
            constraintLoop mw mn ash f w' from by simp [constraintLoop, hp],
          show passIterate mw mn ash (k + 1) w =
            passIterate mw mn ash k w' from by simp [passIterate, hp]]
        exact hEq

/-! ### Main optimize-level helpers -/

/-- On every valid state, whenever `optimize` returns a finite weight
vector (the `some` payload: the source's series is free of non-finite
entries), that vector has absolute sum exactly one. -/
theorem optimize_normalized_aux {st : EGPState} (h : EGPValid st) {ash : Bool}
    {mw mn : Option ℚ} {ws : List ℚ} {flag : Bool}
    (hres : optimize st ash mw mn = .ok (some ws, flag)) : sumAbs ws = 1 := by
  obtain ⟨c0, hc0⟩ := calcC0_isOk h
  by_cases hz : sumAbs (clippedZ st c0 ash) = 0
  · rw [optimize_eq_degenerate hc0 hz mw mn] at hres
    simp only [Except.ok.injEq, Prod.mk.injEq, Option.some.injEq] at hres
    obtain ⟨hws, -⟩ := hres
    rw [← hws, sumAbs_const]
    have hn : st.symbols.length ≠ 0 := fun hh => h.1 (List.length_eq_zero.mp hh)
    have hnq : (st.symbols.length : ℚ) ≠ 0 := Nat.cast_ne_zero.mpr hn
    have hnq0 : (0 : ℚ) ≤ 1 / (st.symbols.length : ℚ) := by positivity
    rw [abs_of_nonneg hnq0]
    field_simp
  · rw [optimize_eq_normal hc0 hz mw mn] at hres
    rcases hap : (if mw.isSome || mn.isSome then
        applyWeightConstraints mw mn ash (rawWeights (clippedZ st c0 ash))
      else some (rawWeights (clippedZ st c0 ash))) with _ | w1
    · simp only [hap] at hres
      simp at hres
    · simp only [hap] at hres
      by_cases hz1 : sumAbs w1 = 0
      · rw [if_pos hz1] at hres
        simp at hres
      · rw [if_neg hz1] at hres
        simp only [Except.ok.injEq, Prod.mk.injEq, Option.some.injEq] at hres
        obtain ⟨hws, -⟩ := hres
        rw [← hws]
        exact sumAbs_normalize hz1

/-- On every valid state, with shorting disallowed, no min bound, and a
nonnegative supplied max bound, every entry of a finite weight vector
returned by `optimize` is nonnegative. -/
theorem optimize_nonneg_aux {st : EGPState} (h : EGPValid st) {mw : Option ℚ}
    (hm : ∀ m, mw = some m → 0 ≤ m) {ws : List ℚ} {flag : Bool}
    (hres : optimize st false mw none = .ok (some ws, flag)) : ∀ x ∈ ws, 0 ≤ x := by
  obtain ⟨c0, hc0⟩ := calcC0_isOk h
  by_cases hz : sumAbs (clippedZ st c0 false) = 0
  · rw [optimize_eq_degenerate hc0 hz mw none] at hres
    simp only [Except.ok.injEq, Prod.mk.injEq, Option.some.injEq] at hres
    obtain ⟨hws, -⟩ := hres
    rw [← hws]
    intro x hx
    obtain ⟨s, hs, rfl⟩ := List.mem_map.mp hx
    positivity
  · rw [optimize_eq_normal hc0 hz mw none] at hres
    have hzc : ∀ x ∈ clippedZ st c0 false, 0 ≤ x := by
      intro x hx
      simp only [clippedZ, Bool.false_eq_true, if_false] at hx
      obtain ⟨z, hzm, rfl⟩ := List.mem_map.mp hx
      exact le_max_right z 0
    have hraw : ∀ x ∈ rawWeights (clippedZ st c0 false), 0 ≤ x := by
      intro x hx
      obtain ⟨z, hzm, rfl⟩ := List.mem_map.mp hx
      exact div_nonneg (hzc z hzm) (sumAbs_nonneg _)
    rcases hap : (if mw.isSome || (none : Option ℚ).isSome then
        applyWeightConstraints mw none false (rawWeights (clippedZ st c0 false))
      else some (rawWeights (clippedZ st c0 false))) with _ | w1
    · simp only [hap] at hres
      simp at hres
    · have hw1 : ∀ x ∈ w1, 0 ≤ x := by
        by_cases hb : (mw.isSome || (none : Option ℚ).isSome) = true
        · rw [if_pos hb] at hap
          exact constraintLoop_nonneg hm 100 _ hraw w1 hap
        · rw [if_neg hb] at hap
          have hwr : rawWeights (clippedZ st c0 false) = w1 := by simpa using hap
          rw [← hwr]
          exact hraw
      simp only [hap] at hres
      by_cases hz1 : sumAbs w1 = 0
      · rw [if_pos hz1] at hres
        simp at hres
      · rw [if_neg hz1] at hres
        simp only [Except.ok.injEq, Prod.mk.injEq, Option.some.injEq] at hres
        obtain ⟨hws, -⟩ := hres
        rw [← hws]
        intro x hx
        obtain ⟨y, hy, rfl⟩ := List.mem_map.mp hx
        exact div_nonneg (hw1 y hy) (sumAbs_nonneg _)

set_option maxRecDepth 8000 in
set_option maxHeartbeats 1600000 in
/-- Concrete end-to-end evaluation of `optimize` at a feasible positive max
bound: raw weights `[1/3, 2/3]` project to `[1/2, 1/2]` (the excess `1/6`
of the clipped stock is redistributed onto the single free stock, whose
free-set sum `1/3` is nonzero) and the result renormalizes to itself. -/
theorem optimize_feasible_eval :
    optimize ⟨[0, 1], [1/10, 1/5], [0, 0], [1, 1], 1, 0⟩ false
      (some (1/2)) none = .ok (some [1/2, 1/2], false) := by
  have hc0 : calcC0 ⟨[0, 1], [1/10, 1/5], [0, 0], [1, 1], 1, 0⟩ =
      Except.ok 0 := by
    unfold calcC0
    norm_num
  have hz : sumAbs (clippedZ ⟨[0, 1], [1/10, 1/5], [0, 0], [1, 1], 1, 0⟩
      0 false) ≠ 0 := by
    norm_num [clippedZ, zValues, sumAbs, abs_of_nonneg, abs_of_pos]
  rw [optimize_eq_normal hc0 hz (some (1/2)) none]
  norm_num [rawWeights, clippedZ, zValues, sumAbs, abs_of_nonneg, abs_of_pos,
    applyWeightConstraints, constraintLoop, constraintPass, maxPhase, maxPhaseGo,
    maxRedistribute, minPhase]

/-! ### Claim theorems for the optimizer -/

/-- C5: `EGPOptimizer` construction fails with a `ValidationError` exactly
when the intersection of the asset-id sets of the three input series is
empty, or some residual variance among the aligned (intersected) assets is
non-positive, or the market variance is non-positive; for all other inputs
construction succeeds. -/
theorem egp_init_validation_iff (er b rv : List (ℕ × ℚ)) (mv rf : ℚ) :
    (∃ st, egpInit er b rv mv rf = .ok st) ↔
      (commonSymbols er b rv ≠ [] ∧
       (∀ v ∈ alignSeries (commonSymbols er b rv) rv, 0 < v) ∧
       0 < mv) := by
  constructor
  · rintro ⟨st, hst⟩
    simp only [egpInit] at hst
    split at hst
    · cases hst
    next h1 =>
      split at hst
      next h2 => cases hst
      next h2 =>
        split at hst
        next h3 => cases hst
        next h3 =>
          refine ⟨h1, ?_, not_le.mp h3⟩
          intro v hv
          by_contra hcon
          exact h2 (List.any_eq_true.mpr ⟨v, hv, by simpa using hcon⟩)
  · rintro ⟨h1, h2, h3⟩
    have hv2 : ¬((alignSeries (commonSymbols er b rv) rv).any
        (fun v => v ≤ 0) = true) := by
      intro hany
      obtain ⟨v, hv, hle⟩ := List.any_eq_true.mp hany
      exact absurd (h2 v hv) (not_lt.mpr (by simpa using hle))
    refine ⟨⟨commonSymbols er b rv, alignSeries (commonSymbols er b rv) er,
      alignSeries (commonSymbols er b rv) b, alignSeries (commonSymbols er b rv) rv,
      mv, rf⟩, ?_⟩
    simp only [egpInit]
    rw [if_neg h1, if_neg hv2, if_neg (not_le.mpr h3)]

/-- C6: whenever the absolute sum of the (short-sale-clipped) Z values is
zero, `optimize` returns equal weights `1/N` over all aligned input assets
together with the degenerate-ranking warning, instead of raising; otherwise
no warning is emitted and the raw weights are `Z_i / Σ|Z_j|` — with no box
bounds supplied, `optimize` returns exactly those raw weights. -/
theorem egp_degenerate_ranking_fallback (st : EGPState) (ash : Bool)
    (c0 : ℚ) (hc0 : calcC0 st = .ok c0) :
    (∀ mw mn, sumAbs (clippedZ st c0 ash) = 0 →
       optimize st ash mw mn =
         .ok (some (st.symbols.map (fun _ => 1 / (st.symbols.length : ℚ))), true)) ∧
    (sumAbs (clippedZ st c0 ash) ≠ 0 →
       optimize st ash none none =
         .ok (some (rawWeights (clippedZ st c0 ash)), false)) := by
  constructor
  · intro mw mn hz
    exact optimize_eq_degenerate hc0 hz mw mn
  · intro hz
    rw [optimize_eq_normal hc0 hz none none]
    have hraw : sumAbs (rawWeights (clippedZ st c0 ash)) = 1 := by
      unfold rawWeights
      exact sumAbs_normalize hz
    simp [hraw]

/-- Witness for C6 at two concrete states: a degenerate one (single asset
with zero excess return, so `Z = [0]`) that yields equal weights and the
warning, and a non-degenerate one that yields the raw normalized Z. -/
theorem egp_degenerate_ranking_fallback_witness :
    optimize ⟨[0], [0], [1], [1], 1, 0⟩ false none none = .ok (some [1], true) ∧
    optimize ⟨[0, 1], [1/10, 1/5], [1, 1], [1, 1], 1, 0⟩ false none none =
      .ok (some (rawWeights
        (clippedZ ⟨[0, 1], [1/10, 1/5], [1, 1], [1, 1], 1, 0⟩ (1/10) false)), false) := by
  constructor
  · have h := (egp_degenerate_ranking_fallback ⟨[0], [0], [1], [1], 1, 0⟩ false 0
        (by unfold calcC0; norm_num)).1 none none
        (by norm_num [clippedZ, zValues, sumAbs])
    simpa using h
  · exact (egp_degenerate_ranking_fallback ⟨[0, 1], [1/10, 1/5], [1, 1], [1, 1], 1, 0⟩
        false (1/10) (by unfold calcC0; norm_num)).2
        (by norm_num [clippedZ, zValues, sumAbs])

set_option maxRecDepth 8000 in
set_option maxHeartbeats 1600000 in
/-- Concrete end-to-end evaluation of `optimize` hitting the zero-free-sum
redistribution: raw weights `[1, 0]` with `max_weight = 1/2` clip to
`[1/2, 0]` and redistribute the excess `1/2` over the free set `{0}` whose
sum is zero — `0/0 = NaN` in the source, which returns `[1.0, NaN]`; the
non-finite marker here. -/
theorem optimize_nan_redistribution_eval :
    optimize ⟨[0, 1], [1/10, 0], [0, 0], [1, 1], 1, 0⟩ false
      (some (1/2)) none = .ok (none, false) := by
  have hc0 : calcC0 ⟨[0, 1], [1/10, 0], [0, 0], [1, 1], 1, 0⟩ = Except.ok 0 := by
    unfold calcC0
    norm_num
  have hz : sumAbs (clippedZ ⟨[0, 1], [1/10, 0], [0, 0], [1, 1], 1, 0⟩ 0 false) ≠ 0 := by
    norm_num [clippedZ, zValues, sumAbs, abs_of_nonneg, abs_of_pos]
  rw [optimize_eq_normal hc0 hz (some (1/2)) none]
  norm_num [rawWeights, clippedZ, zValues, sumAbs, abs_of_nonneg, abs_of_pos,
    applyWeightConstraints, constraintLoop, constraintPass, maxPhase, maxPhaseGo,
    maxRedistribute, minPhase]

/-- C1 (amended): for every valid optimizer input and every `optimize`
argument combination, whenever the returned weight series is finite (the
`some` payload: no NaN/±inf entries) its absolute sum is exactly 1 (hence
within 1e-6), including on the degenerate-ranking branch and after
constrained projection.  The finiteness proviso is forced: with
`max_weight = 0` the projected vector is all-zero and the final
renormalization divides `0/0`, and with e.g. raw weights `[1, 0]` and the
positive, feasible bound `max_weight = 1/2` the loop's redistribution
divides by a zero free-set sum — in both cases the source returns NaN
entries and `Σ|w| = 1` fails; see the counterexample. -/
theorem egp_optimize_weights_normalized (st : EGPState) (h : EGPValid st)
    (ash : Bool) (mw mn : Option ℚ) (ws : List ℚ) (flag : Bool)
    (hres : optimize st ash mw mn = .ok (some ws, flag)) : sumAbs ws = 1 :=
  optimize_normalized_aux h hres

set_option maxRecDepth 8000 in
set_option maxHeartbeats 1600000 in
/-- Counterexample to C1 as stated, in both reachable non-finite modes.
First conjunct: a valid two-asset input with `max_weight = 0` — the
projection zeroes every weight (no stock is ever below the bound, so
nothing is redistributed) and the final renormalization is `0/0`; the
source returns an all-NaN vector (the `none` marker here), so no weight
vector with `Σ|w| = 1` is returned.  Second conjunct: a valid two-asset
input whose raw weights are `[1, 0]`, with the positive and jointly
feasible bound `max_weight = 1/2` — the clipped excess is redistributed
over the free set `{0}` whose sum is zero (`0/0 = NaN` at source lines
241–242), the source returns `[1.0, NaN]`, and `Σ|w| = 1` fails although
the supplied max bound is positive. -/
theorem egp_optimize_weights_normalized_cex :
    ((egpInit [(0, 1/10), (1, 1/5)] [(0, 1), (1, 1)] [(0, 1), (1, 1)] 1 0).bind
      (fun st => optimize st false (some 0) none)).toOption =
      some (none, false) ∧
    ((egpInit [(0, 1/10), (1, 0)] [(0, 0), (1, 0)] [(0, 1), (1, 1)] 1 0).bind
      (fun st => optimize st false (some (1/2)) none)).toOption =
      some (none, false) := by
  constructor
  · have hinit : egpInit [(0, 1/10), (1, 1/5)] [(0, 1), (1, 1)] [(0, 1), (1, 1)] 1 0 =
        Except.ok ⟨[0, 1], [1/10, 1/5], [1, 1], [1, 1], 1, 0⟩ := by
      norm_num [egpInit, commonSymbols, alignSeries, alookup]
      exact fun h => absurd h (by simp)
    have hc0 : calcC0 ⟨[0, 1], [1/10, 1/5], [1, 1], [1, 1], 1, 0⟩ =
        Except.ok (1/10) := by
      unfold calcC0
      norm_num
    have hz : sumAbs (clippedZ ⟨[0, 1], [1/10, 1/5], [1, 1], [1, 1], 1, 0⟩
        (1/10) false) ≠ 0 := by
      norm_num [clippedZ, zValues, sumAbs, abs_of_nonneg, abs_of_pos]
    have hopt : optimize ⟨[0, 1], [1/10, 1/5], [1, 1], [1, 1], 1, 0⟩ false
        (some 0) none = Except.ok (none, false) := by
      rw [optimize_eq_normal hc0 hz (some 0) none]
      norm_num [rawWeights, clippedZ, zValues, sumAbs, abs_of_nonneg, abs_of_pos,
        applyWeightConstraints, constraintLoop, constraintPass, maxPhase,
        maxPhaseGo, maxRedistribute, minPhase]
    rw [hinit]
    simp only [Except.bind]
    rw [hopt]
    rfl
  · have hinit : egpInit [(0, 1/10), (1, 0)] [(0, 0), (1, 0)] [(0, 1), (1, 1)] 1 0 =
        Except.ok ⟨[0, 1], [1/10, 0], [0, 0], [1, 1], 1, 0⟩ := by
      norm_num [egpInit, commonSymbols, alignSeries, alookup]
      exact fun h => absurd h (by simp)
    rw [hinit]
    simp only [Except.bind]
    rw [optimize_nan_redistribution_eval]
    rfl

/-- Witness for C1 at a concrete valid input with a feasible positive max
bound on which the constrained projection stays finite: raw weights
`[1/3, 2/3]` project to `[1/2, 1/2]`, whose absolute sum is 1. -/
theorem egp_optimize_weights_normalized_witness :
    EGPValid ⟨[0, 1], [1/10, 1/5], [0, 0], [1, 1], 1, 0⟩ ∧
    optimize ⟨[0, 1], [1/10, 1/5], [0, 0], [1, 1], 1, 0⟩ false
      (some (1/2)) none = .ok (some [1/2, 1/2], false) ∧
    sumAbs [1/2, 1/2] = 1 := by
  have hv : EGPValid ⟨[0, 1], [1/10, 1/5], [0, 0], [1, 1], 1, 0⟩ := by
    norm_num [EGPValid]
    simp
  exact ⟨hv, optimize_feasible_eval,
    egp_optimize_weights_normalized _ hv false (some (1/2)) none [1/2, 1/2] false
      optimize_feasible_eval⟩

/-- C3 (amended): with short sales disallowed, no min bound, and any
supplied max bound nonnegative, every entry of a finite returned weight
vector (the `some` payload) is nonnegative, hence ≥ −1e-10; and the
projected weights at any converged (no-modification) pass satisfy the
configured bounds exactly.  The restrictions are forced: a supplied min
bound can overdraw donor weights below −1e-10, and on inputs hitting the
zero-free-sum redistribution (raw weights `[1, 0]` with
`max_weight = 1/2`) the source returns a vector containing NaN, for which
`NaN ≥ −1e-10` is false — see the counterexample for both. -/
theorem egp_short_sale_nonneg (st : EGPState) (h : EGPValid st) (mw : Option ℚ)
    (hm : ∀ m, mw = some m → 0 ≤ m) :
    (∀ (ws : List ℚ) (flag : Bool),
      optimize st false mw none = .ok (some ws, flag) → ∀ x ∈ ws, 0 ≤ x) ∧
    (∀ (mw2 mn2 : Option ℚ) (ash2 : Bool) (v : List ℚ),
      constraintPass mw2 mn2 ash2 v = (some v, false) →
      (∀ m, mw2 = some m → ∀ x ∈ v, x ≤ m) ∧
      (∀ n, mn2 = some n → ash2 = false → ∀ x ∈ v, ¬(0 < x ∧ x < n))) :=
  ⟨fun _ _ hres => optimize_nonneg_aux h hm hres,
   fun _ _ _ _ hfix => constraintPass_fixpoint_bounds hfix⟩

set_option maxRecDepth 8000 in
set_option maxHeartbeats 1600000 in
/-- Counterexample to C3 as stated.  First two conjuncts: a valid
three-asset input on which `optimize` with `allow_short = False` and
`min_weight = 0.9` returns the finite weight `-4/13 ≈ -0.31 < -1e-10` —
the min-phase redistribution overdraws the single donor below zero.
Third conjunct: with no min bound and the nonnegative `max_weight = 1/2`,
raw weights `[1, 0]` hit the zero-free-sum redistribution, the source
returns `[1.0, NaN]` (the `none` marker here), and `NaN ≥ -1e-10` is
false, so the claimed nonnegativity fails on that path as well. -/
theorem egp_short_sale_nonneg_cex :
    ((egpInit [(0, 1/100), (1, 1/100), (2, 49/50)] [(0, 0), (1, 0), (2, 0)]
        [(0, 1), (1, 1), (2, 1)] 1 0).bind
      (fun st => optimize st false none (some (9/10)))).toOption =
      some (some [9/26, 9/26, -4/13], false) ∧
    (-4/13 : ℚ) < -(1/10^10) ∧
    optimize ⟨[0, 1], [1/10, 0], [0, 0], [1, 1], 1, 0⟩ false
      (some (1/2)) none = .ok (none, false) := by
  refine ⟨?_, by norm_num, optimize_nan_redistribution_eval⟩
  have hinit : egpInit [(0, 1/100), (1, 1/100), (2, 49/50)] [(0, 0), (1, 0), (2, 0)]
      [(0, 1), (1, 1), (2, 1)] 1 0 =
      Except.ok ⟨[0, 1, 2], [1/100, 1/100, 49/50], [0, 0, 0], [1, 1, 1], 1, 0⟩ := by
    norm_num [egpInit, commonSymbols, alignSeries, alookup]
    exact fun h => absurd h (by simp)
  have hc0 : calcC0 ⟨[0, 1, 2], [1/100, 1/100, 49/50], [0, 0, 0], [1, 1, 1], 1, 0⟩ =
      Except.ok 0 := by
    unfold calcC0
    norm_num
  have hz : sumAbs (clippedZ ⟨[0, 1, 2], [1/100, 1/100, 49/50], [0, 0, 0],
      [1, 1, 1], 1, 0⟩ 0 false) ≠ 0 := by
    norm_num [clippedZ, zValues, sumAbs, abs_of_nonneg, abs_of_pos]
  have hopt : optimize ⟨[0, 1, 2], [1/100, 1/100, 49/50], [0, 0, 0], [1, 1, 1], 1, 0⟩
      false none (some (9/10)) = Except.ok (some [9/26, 9/26, -4/13], false) := by
    rw [optimize_eq_normal hc0 hz none (some (9/10))]
    norm_num [rawWeights, clippedZ, zValues, sumAbs, abs_of_nonneg, abs_of_pos,
      applyWeightConstraints, constraintLoop, constraintPass, maxPhase, maxPhaseGo,
      maxRedistribute, minPhase]
  rw [hinit]
  simp only [Except.bind]
  rw [hopt]
  rfl

/-- Witness for C3: nonnegativity of a concrete finite result under a
nonnegative max bound, and the converged-pass bounds at a concrete
fixpoint. -/
theorem egp_short_sale_nonneg_witness :
    (∀ x ∈ [(1:ℚ)/2, 1/2], 0 ≤ x) ∧ (∀ x ∈ [(1:ℚ)/4, 1/4], x ≤ 1/2) := by
  have hv : EGPValid ⟨[0, 1], [1/10, 1/5], [0, 0], [1, 1], 1, 0⟩ := by
    norm_num [EGPValid]
    simp
  have h := egp_short_sale_nonneg _ hv (some (1/2))
    (by intro m hm; cases hm; norm_num)
  refine ⟨h.1 [1/2, 1/2] false optimize_feasible_eval, ?_⟩
  exact (h.2 (some (1/2)) none false [1/4, 1/4]
    (by norm_num [constraintPass, maxPhase, maxPhaseGo, maxRedistribute,
      minPhase])).1 (1/2) rfl

/-- C8 (amended): the constrained-projection loop performs at most 100
passes and stops early on any pass that modifies nothing, for every input
weight vector and every bound setting, including jointly infeasible
bounds; and whenever `optimize` returns a finite weight vector it is
renormalized to `Σ|w| = 1`.  Finiteness is forced: with `max_weight = 0`
the projected vector is all-zero and the final renormalization is `0/0`
(an all-NaN vector in the source), and a zero free-set sum inside the loop
(raw weights `[1, 0]` with `max_weight = 1/2`) poisons the vector before
the renormalization; see the counterexample. -/
theorem egp_constraint_loop_caps :
    (∀ (mw mn : Option ℚ) (ash : Bool) (w : List ℚ), ∃ k ≤ 100,
      applyWeightConstraints mw mn ash w = passIterate mw mn ash k w) ∧
    (∀ (mw mn : Option ℚ) (ash : Bool) (w : List ℚ),
      constraintPass mw mn ash w = (some w, false) →
      applyWeightConstraints mw mn ash w = some w) ∧
    (∀ st : EGPState, EGPValid st → ∀ (ash : Bool) (mw mn : Option ℚ)
      (ws : List ℚ) (flag : Bool),
      optimize st ash mw mn = .ok (some ws, flag) → sumAbs ws = 1) := by
  refine ⟨fun mw mn ash w => constraintLoop_eq_iterate mw mn ash 100 w, ?_,
    fun st h ash mw mn ws flag hres => optimize_normalized_aux h hres⟩
  intro mw mn ash w hfix
  have h1 : applyWeightConstraints mw mn ash w = constraintLoop mw mn ash 100 w := rfl
  rw [h1, show (100 : ℕ) = 99 + 1 from rfl, constraintLoop]
  simp [hfix]

set_option maxRecDepth 8000 in
set_option maxHeartbeats 1600000 in
/-- Counterexample to C8 as stated: termination within 100 passes always
holds, but the "returns a normalized vector" half fails on the non-finite
paths.  With `max_weight = 0` the projection of raw weights `[1, 0, 0]`
terminates at the all-zero vector (no stock sits strictly below the bound,
so nothing is redistributed and the excess is dropped) and the final
renormalization is `0/0`: on a valid three-asset input, `optimize` returns
the non-finite marker (an all-NaN vector in the source), not a vector with
`Σ|w| = 1`.  And with `max_weight = 1/2` the projection of raw weights
`[1, 0]` itself hits the zero-free-sum redistribution. -/
theorem egp_constraint_loop_caps_cex :
    applyWeightConstraints (some 0) none false [1, 0, 0] = some [0, 0, 0] ∧
    ((egpInit [(0, 2/10), (1, 1/10), (2, 1/10)] [(0, 1), (1, 1), (2, 1)]
        [(0, 1), (1, 1), (2, 1)] 1 0).bind
      (fun st => optimize st false (some 0) none)).toOption =
      some (none, false) ∧
    applyWeightConstraints (some (1/2)) none false [1, 0] = none := by
  refine ⟨?_, ?_, ?_⟩
  · norm_num [applyWeightConstraints, constraintLoop, constraintPass, maxPhase,
      maxPhaseGo, maxRedistribute, minPhase]
  · have hinit : egpInit [(0, 2/10), (1, 1/10), (2, 1/10)] [(0, 1), (1, 1), (2, 1)]
        [(0, 1), (1, 1), (2, 1)] 1 0 =
        Except.ok ⟨[0, 1, 2], [2/10, 1/10, 1/10], [1, 1, 1], [1, 1, 1], 1, 0⟩ := by
      norm_num [egpInit, commonSymbols, alignSeries, alookup]
      exact fun h => absurd h (by simp)
    have hc0 : calcC0 ⟨[0, 1, 2], [2/10, 1/10, 1/10], [1, 1, 1], [1, 1, 1], 1, 0⟩ =
        Except.ok (1/10) := by
      unfold calcC0
      norm_num
    have hz : sumAbs (clippedZ ⟨[0, 1, 2], [2/10, 1/10, 1/10], [1, 1, 1],
        [1, 1, 1], 1, 0⟩ (1/10) false) ≠ 0 := by
      norm_num [clippedZ, zValues, sumAbs, abs_of_nonneg, abs_of_pos]
    have hopt : optimize ⟨[0, 1, 2], [2/10, 1/10, 1/10], [1, 1, 1], [1, 1, 1], 1, 0⟩
        false (some 0) none = Except.ok (none, false) := by
      rw [optimize_eq_normal hc0 hz (some 0) none]
      norm_num [rawWeights, clippedZ, zValues, sumAbs, abs_of_nonneg, abs_of_pos,
        applyWeightConstraints, constraintLoop, constraintPass, maxPhase,
        maxPhaseGo, maxRedistribute, minPhase]
    rw [hinit]
    simp only [Except.bind]
    rw [hopt]
    rfl
  · norm_num [applyWeightConstraints, constraintLoop, constraintPass, maxPhase,
      maxPhaseGo, maxRedistribute, minPhase]

/-- Witness for C8 at concrete inputs: the pass-count bound at a concrete
projection (one that poisons, showing termination covers that path too),
the early stop at a concrete fixpoint, and the normalization of a concrete
finite `optimize` result. -/
theorem egp_constraint_loop_caps_witness :
    (∃ k ≤ 100, applyWeightConstraints (some (1/2)) none false [1, 0] =
      passIterate (some (1/2)) none false k [1, 0]) ∧
    applyWeightConstraints (some (1/2)) none false [1/4, 1/4] = some [1/4, 1/4] ∧
    sumAbs [1/2, 1/2] = 1 := by
  refine ⟨egp_constraint_loop_caps.1 _ _ _ _,
    egp_constraint_loop_caps.2.1 _ _ _ _
      (by norm_num [constraintPass, maxPhase, maxPhaseGo, maxRedistribute,
        minPhase]),
    egp_constraint_loop_caps.2.2 _ ?_ false (some (1/2)) none [1/2, 1/2] false
      optimize_feasible_eval⟩
  norm_num [EGPValid]
  simp

/-! ### Association-list lemmas for the ledger -/

theorem alookup_eq_none_iff {β : Type} (l : List (ℕ × β)) (s : ℕ) :
    alookup l s = none ↔ s ∉ l.map Prod.fst := by
  induction l with
  | nil => simp [alookup]
  | cons e t ih =>
    rcases e with ⟨k, v⟩
    by_cases hk : s = k
    · simp [alookup, hk]
    · simp [alookup, hk, ih]

theorem alookup_append {β : Type} (l1 l2 : List (ℕ × β)) (s : ℕ) :
    alookup (l1 ++ l2) s =
      match alookup l1 s with
      | some v => some v
      | none => alookup l2 s := by
  induction l1 with
  | nil => simp [alookup]
  | cons e t ih =>
    rcases e with ⟨k, v⟩
    by_cases hk : s = k
    · simp [alookup, hk]
    · simp [alookup, hk, ih]

theorem alookup_map_replace_self {β : Type} {h : List (ℕ × β)} {s : ℕ}
    (hsome : (alookup h s).isSome = true) (q : β) :
    alookup (h.map (fun e => if e.1 = s then (s, q) else e)) s = some q := by
  induction h with
  | nil => simp [alookup] at hsome
  | cons e t ih =>
    rcases e with ⟨k, v⟩
    simp only [List.map_cons]
    by_cases hk : k = s
    · rw [show (if (k, v).1 = s then (s, q) else (k, v)) = (s, q) from if_pos hk]
      simp [alookup]
    · rw [show (if (k, v).1 = s then (s, q) else (k, v)) = (k, v) from if_neg hk]
      have hks : ¬(s = k) := fun hh => hk hh.symm
      simp only [alookup, if_neg hks] at hsome ⊢
      exact ih hsome

theorem alookup_map_replace_ne {β : Type} (h : List (ℕ × β)) {s k : ℕ}
    (hne : k ≠ s) (q : β) :
    alookup (h.map (fun e => if e.1 = s then (s, q) else e)) k = alookup h k := by
  induction h with
  | nil => simp [alookup]
  | cons e t ih =>
    rcases e with ⟨k2, v⟩
    simp only [List.map_cons]
    by_cases hk2 : k2 = s
    · rw [show (if (k2, v).1 = s then (s, q) else (k2, v)) = (s, q) from if_pos hk2]
      simp only [alookup, if_neg hne]
      rw [ih]
      have hnk2 : ¬(k = k2) := fun hh => hne (hk2 ▸ hh)
      simp [alookup, hnk2]
    · rw [show (if (k2, v).1 = s then (s, q) else (k2, v)) = (k2, v) from if_neg hk2]
      by_cases hkk : k = k2
      · simp [alookup, hkk]
      · simp only [alookup, if_neg hkk]
        exact ih

theorem map_replace_id {β : Type} {h : List (ℕ × β)} {s : ℕ}
    (hnotin : s ∉ h.map Prod.fst) (q : β) :
    h.map (fun e => if e.1 = s then (s, q) else e) = h := by
  induction h with
  | nil => rfl
  | cons e t ih =>
    simp only [List.map_cons, List.mem_cons, not_or] at hnotin
    obtain ⟨h1, h2⟩ := hnotin
    have hne : ¬(e.1 = s) := fun hh => h1 hh.symm
    simp [hne, ih h2]

theorem alookup_setQty_self (h : List (ℕ × ℤ)) (s : ℕ) (q : ℤ) :
    alookup (setQty h s q) s = some q := by
  unfold setQty
  split
  next hsome => exact alookup_map_replace_self hsome q
  next hnone =>
    rw [alookup_append]
    have : alookup h s = none := by
      cases hcase : alookup h s
      · rfl
      · rw [hcase] at hnone; simp at hnone
    rw [this]
    simp [alookup]

theorem alookup_setQty_ne (h : List (ℕ × ℤ)) {s k : ℕ} (hne : k ≠ s) (q : ℤ) :
    alookup (setQty h s q) k = alookup h k := by
  unfold setQty
  split
  next hsome => exact alookup_map_replace_ne h hne q
  next hnone =>
    rw [alookup_append]
    cases hcase : alookup h k
    · simp [alookup, if_neg hne]
    · rfl

theorem qtyOf_setQty_self (h : List (ℕ × ℤ)) (s : ℕ) (q : ℤ) :
    qtyOf (setQty h s q) s = q := by
  unfold qtyOf
  rw [alookup_setQty_self]
  rfl

theorem qtyOf_setQty_ne (h : List (ℕ × ℤ)) {s k : ℕ} (hne : k ≠ s) (q : ℤ) :
    qtyOf (setQty h s q) k = qtyOf h k := by
  unfold qtyOf
  rw [alookup_setQty_ne h hne]

theorem keysNodup_setQty {h : List (ℕ × ℤ)} (hn : keysNodup h) (s : ℕ) (q : ℤ) :
    keysNodup (setQty h s q) := by
  unfold setQty
  split
  next hsome =>
    have hkeys : (h.map (fun e => if e.1 = s then (s, q) else e)).map Prod.fst =
        h.map Prod.fst := by
      rw [List.map_map]
      apply List.map_congr_left
      intro e _
      by_cases he : e.1 = s
      · simp [he]
      · simp [he]
    unfold keysNodup
    rw [hkeys]
    exact hn
  next hnone =>
    have hnotin : s ∉ h.map Prod.fst := by
      rw [← alookup_eq_none_iff]
      cases hcase : alookup h s
      · rfl
      · rw [hcase] at hnone; simp at hnone
    unfold keysNodup at hn ⊢
    rw [List.map_append]
    simp [List.nodup_append, hn, hnotin]

/-! ### Valuation lemmas for the ledger -/

theorem holdingsValue_cons (e : ℕ × ℤ) (t : List (ℕ × ℤ))
    (prices : List (ℕ × Option ℚ)) :
    holdingsValue (e :: t) prices =
      (match priceOf prices e.1 with
        | some pr => (e.2 : ℚ) * pr
        | none => 0) + holdingsValue t prices := by
  simp [holdingsValue]

theorem holdingsValue_append_single (h : List (ℕ × ℤ)) (s : ℕ) (q : ℤ)
    (prices : List (ℕ × Option ℚ)) :
    holdingsValue (h ++ [(s, q)]) prices = holdingsValue h prices +
      (match priceOf prices s with
        | some pr => (q : ℚ) * pr
        | none => 0) := by
  simp [holdingsValue, List.map_append, List.sum_append]

theorem holdingsValue_map_replace_none {prices : List (ℕ × Option ℚ)} {s : ℕ}
    (hpr : priceOf prices s = none) (q : ℤ) :
    ∀ h : List (ℕ × ℤ),
      holdingsValue (h.map (fun e => if e.1 = s then (s, q) else e)) prices =
        holdingsValue h prices := by
  intro h
  induction h with
  | nil => rfl
  | cons e t ih =>
    simp only [List.map_cons]
    by_cases hk : e.1 = s
    · rw [show (if e.1 = s then (s, q) else e) = (s, q) from if_pos hk]
      rw [holdingsValue_cons, holdingsValue_cons, ih]
      rw [show priceOf prices e.1 = none from hk ▸ hpr]
      simp [hpr]
    · rw [show (if e.1 = s then (s, q) else e) = e from if_neg hk]
      rw [holdingsValue_cons, holdingsValue_cons, ih]

/-- A holding whose price is missing contributes nothing to the valuation:
setting it to any quantity leaves the portfolio value unchanged. -/
theorem holdingsValue_setQty_none {prices : List (ℕ × Option ℚ)} {s : ℕ}
    (hpr : priceOf prices s = none) (h : List (ℕ × ℤ)) (q : ℤ) :
    holdingsValue (setQty h s q) prices = holdingsValue h prices := by
  unfold setQty
  split
  · exact holdingsValue_map_replace_none hpr q h
  · rw [holdingsValue_append_single]
    simp [hpr]

theorem holdingsValue_setQty_some {prices : List (ℕ × Option ℚ)} {s : ℕ} {pr : ℚ}
    (hpr : priceOf prices s = some pr) {h : List (ℕ × ℤ)} (hn : keysNodup h)
    (q : ℤ) :
    holdingsValue (setQty h s q) prices =
      holdingsValue h prices + ((q : ℚ) - (qtyOf h s : ℚ)) * pr := by
  unfold setQty
  split
  next hsome =>
    induction h with
    | nil => simp [alookup] at hsome
    | cons e t ih =>
      rcases e with ⟨k, v⟩
      simp only [List.map_cons]
      by_cases hk : k = s
      · subst hk
        rw [show (if (k, v).1 = k then (k, q) else (k, v)) = (k, q) from if_pos rfl]
        have hknot : k ∉ t.map Prod.fst := by
          have hd := hn
          unfold keysNodup at hd
          simp only [List.map_cons, List.nodup_cons] at hd
          exact hd.1
        rw [map_replace_id hknot q]
        rw [holdingsValue_cons, holdingsValue_cons]
        rw [show qtyOf ((k, v) :: t) k = v from by simp [qtyOf, alookup]]
        simp only [hpr]
        ring
      · rw [show (if (k, v).1 = s then (s, q) else (k, v)) = (k, v) from if_neg hk]
        have hks : ¬(s = k) := fun hh => hk hh.symm
        simp only [alookup, if_neg hks] at hsome
        have ht : keysNodup t := by
          unfold keysNodup at hn ⊢
          simp only [List.map_cons, List.nodup_cons] at hn
          exact hn.2
        rw [holdingsValue_cons, holdingsValue_cons]
        rw [show qtyOf ((k, v) :: t) s = qtyOf t s from by simp [qtyOf, alookup, hks]]
        rw [ih ht hsome]
        ring
  next hsome =>
    have hnone : alookup h s = none := Option.not_isSome_iff_eq_none.mp hsome
    rw [holdingsValue_append_single]
    rw [show qtyOf h s = 0 from by simp [qtyOf, hnone]]
    simp only [hpr]
    ring

/-! ### Lemmas about the target quantities and the trade loop -/

theorem mem_targetQuantities {tw : List (ℕ × ℚ)} {prices : List (ℕ × Option ℚ)}
    {pv : ℚ} {s : ℕ} {pr : ℚ} {q : ℤ}
    (hmem : (s, pr, q) ∈ targetQuantities tw prices pv) :
    priceOf prices s = some pr ∧ ∃ w, (s, w) ∈ tw ∧ q = ratTrunc (w * pv / pr) := by
  unfold targetQuantities at hmem
  obtain ⟨⟨s0, w0⟩, he, heq⟩ := List.mem_filterMap.mp hmem
  rcases hcase : priceOf prices s0 with _ | pr2
  · rw [hcase] at heq
    cases heq
  · rw [hcase] at heq
    simp only [Option.map_some', Option.some.injEq, Prod.mk.injEq] at heq
    obtain ⟨h1, h2, h3⟩ := heq
    subst h1
    subst h2
    exact ⟨hcase, w0, he, h3.symm⟩

theorem mem_targetQuantities_intro {tw : List (ℕ × ℚ)}
    {prices : List (ℕ × Option ℚ)} {pv : ℚ} {s : ℕ} {w pr : ℚ}
    (hmem : (s, w) ∈ tw) (hpr : priceOf prices s = some pr) :
    (s, pr, ratTrunc (w * pv / pr)) ∈ targetQuantities tw prices pv := by
  unfold targetQuantities
  exact List.mem_filterMap.mpr ⟨(s, w), hmem, by simp [hpr]⟩

theorem keys_targetQuantities_sublist (tw : List (ℕ × ℚ))
    (prices : List (ℕ × Option ℚ)) (pv : ℚ) :
    ((targetQuantities tw prices pv).map Prod.fst).Sublist (tw.map Prod.fst) := by
  induction tw with
  | nil => simp [targetQuantities]
  | cons e t ih =>
    unfold targetQuantities at ih ⊢
    simp only [List.filterMap_cons]
    rcases hcase : priceOf prices e.1 with _ | pr
    · simp only [Option.map_none', List.map_cons]
      exact ih.cons _
    · simp only [Option.map_some', List.map_cons]
      exact ih.cons₂ _

theorem applyTrades_correct (rate : ℚ) (prices : List (ℕ × Option ℚ)) :
    ∀ (tq : List (ℕ × ℚ × ℤ)) (h : List (ℕ × ℤ)), keysNodup h →
      (∀ e ∈ tq, priceOf prices e.1 = some e.2.1) →
      keysNodup (applyTrades rate tq h).1 ∧
      holdingsValue (applyTrades rate tq h).1 prices =
        holdingsValue h prices +
          (((applyTrades rate tq h).2).map Trade.value).sum := by
  intro tq
  induction tq with
  | nil =>
    intro h hn _
    exact ⟨hn, by simp [applyTrades]⟩
  | cons e rest ih =>
    rcases e with ⟨s, pr, q⟩
    intro h hn hpr
    have hprs : priceOf prices s = some pr := by
      simpa using hpr (s, pr, q) (List.mem_cons_self _ _)
    have hprrest : ∀ e ∈ rest, priceOf prices e.1 = some e.2.1 :=
      fun e he => hpr e (List.mem_cons_of_mem _ he)
    by_cases hd : q - qtyOf h s = 0
    · obtain ⟨ihn, ihv⟩ := ih h hn hprrest
      exact ⟨by simpa [applyTrades, hd] using ihn,
        by simpa [applyTrades, hd] using ihv⟩
    · have h' := keysNodup_setQty hn s q
      obtain ⟨ihn, ihv⟩ := ih (setQty h s q) h' hprrest
      refine ⟨by simpa [applyTrades, hd] using ihn, ?_⟩
      have hv := holdingsValue_setQty_some hprs hn q
      simp only [applyTrades, if_neg hd, List.map_cons, List.sum_cons]
      rw [ihv, hv]
      push_cast
      ring

theorem applyTrades_trades (rate : ℚ) (prices : List (ℕ × Option ℚ)) :
    ∀ (tq : List (ℕ × ℚ × ℤ)) (h : List (ℕ × ℤ)),
      (∀ e ∈ tq, priceOf prices e.1 = some e.2.1) →
      ∀ t ∈ (applyTrades rate tq h).2,
        t.cost = |(t.qty : ℚ)| * t.price * rate ∧ t.qty ≠ 0 ∧
        t.value = (t.qty : ℚ) * t.price ∧ t.sym ∈ tq.map Prod.fst ∧
        priceOf prices t.sym = some t.price := by
  intro tq
  induction tq with
  | nil =>
    intro h _ t ht
    simp [applyTrades] at ht
  | cons e rest ih =>
    rcases e with ⟨s, pr, q⟩
    intro h hpr t ht
    have hprs : priceOf prices s = some pr := by
      simpa using hpr (s, pr, q) (List.mem_cons_self _ _)
    have hprrest : ∀ e ∈ rest, priceOf prices e.1 = some e.2.1 :=
      fun e he => hpr e (List.mem_cons_of_mem _ he)
    by_cases hd : q - qtyOf h s = 0
    · have ht2 : t ∈ (applyTrades rate rest h).2 := by
        simpa [applyTrades, hd] using ht
      obtain ⟨h1, h2, h3, h4, h5⟩ := ih h hprrest t ht2
      exact ⟨h1, h2, h3, by simp [h4], h5⟩
    · rw [show applyTrades rate ((s, pr, q) :: rest) h =
          ((applyTrades rate rest (setQty h s q)).1,
            ⟨s, q - qtyOf h s, pr, ((q - qtyOf h s : ℤ) : ℚ) * pr,
              |((q - qtyOf h s : ℤ) : ℚ)| * pr * rate⟩ ::
            (applyTrades rate rest (setQty h s q)).2) from by
        simp [applyTrades, hd]] at ht
      rcases List.mem_cons.mp ht with hhead | htail
      · subst hhead
        refine ⟨rfl, by simpa using hd, rfl, by simp, by simpa using hprs⟩
      · obtain ⟨h1, h2, h3, h4, h5⟩ := ih (setQty h s q) hprrest t htail
        exact ⟨h1, h2, h3, by simp [h4], h5⟩

theorem applyTrades_qty_untouched (rate : ℚ) :
    ∀ (tq : List (ℕ × ℚ × ℤ)) (h : List (ℕ × ℤ)) {s : ℕ},
      s ∉ tq.map Prod.fst →
      qtyOf (applyTrades rate tq h).1 s = qtyOf h s := by
  intro tq
  induction tq with
  | nil => intro h s _; simp [applyTrades]
  | cons e rest ih =>
    rcases e with ⟨k, pr, q⟩
    intro h s hs
    simp only [List.map_cons, List.mem_cons, not_or] at hs
    obtain ⟨hsk, hsrest⟩ := hs
    by_cases hd : q - qtyOf h k = 0
    · have := ih h hsrest
      simpa [applyTrades, hd] using this
    · have := ih (setQty h k q) hsrest
      rw [qtyOf_setQty_ne h hsk q] at this
      simpa [applyTrades, hd] using this

theorem applyTrades_qty (rate : ℚ) :
    ∀ (tq : List (ℕ × ℚ × ℤ)) (h : List (ℕ × ℤ)), keysNodup tq →
      ∀ {s : ℕ} {pr : ℚ} {q : ℤ}, (s, pr, q) ∈ tq →
      qtyOf (applyTrades rate tq h).1 s = q := by
  intro tq
  induction tq with
  | nil =>
    intro h _ s pr q hmem
    simp at hmem
  | cons e rest ih =>
    rcases e with ⟨k, pr0, q0⟩
    intro h hn s pr q hmem
    have hkrest : k ∉ rest.map Prod.fst := by
      unfold keysNodup at hn
      simp only [List.map_cons, List.nodup_cons] at hn
      exact hn.1
    have hnrest : keysNodup rest := by
      unfold keysNodup at hn ⊢
      simp only [List.map_cons, List.nodup_cons] at hn
      exact hn.2
    rcases List.mem_cons.mp hmem with hhead | htail
    · obtain ⟨h1, h2, h3⟩ : s = k ∧ pr = pr0 ∧ q = q0 := by
        simpa [Prod.mk.injEq] using hhead
      subst h1
      subst h3
      by_cases hd : q - qtyOf h s = 0
      · have := applyTrades_qty_untouched rate rest h hkrest
        rw [show qtyOf h s = q from by omega] at this
        simpa [applyTrades, hd] using this
      · have := applyTrades_qty_untouched rate rest (setQty h s q) hkrest
        rw [qtyOf_setQty_self h s q] at this
        simpa [applyTrades, hd] using this
    · have hineq : s ≠ k := by
        intro hh
        subst hh
        exact hkrest (List.mem_map.mpr ⟨(s, pr, q), htail, rfl⟩)
      by_cases hd : q0 - qtyOf h k = 0
      · have := ih h hnrest htail
        simpa [applyTrades, hd] using this
      · have := ih (setQty h k q0) hnrest htail
        simpa [applyTrades, hd] using this

/-! ### Claim theorems for the ledger -/

/-- C4: in `Portfolio.rebalance`, every target asset with a valid
(non-missing) price ends with the integer holding
`truncate-toward-zero(weight * totalValue / price)`; assets with a missing
price are excluded from trading, keep their holding, and contribute 0 to
the valuation (setting their quantity never changes the portfolio value);
every recorded trade is nonzero with signed notional `qty * price` and cost
`|qty| * price * rate`; and cash decreases by the summed signed notionals
plus the summed costs (which are the reported total cost). -/
theorem ledger_rebalance_accounting (p : Ledger) (tw : List (ℕ × ℚ))
    (prices : List (ℕ × Option ℚ)) (hnodT : keysNodup tw) :
    (∀ s w pr, (s, w) ∈ tw → priceOf prices s = some pr →
      qtyOf (rebalance p tw prices).1.holdings s =
        ratTrunc (w * getPortfolioValue p prices / pr)) ∧
    (∀ s, priceOf prices s = none →
      (∀ t ∈ (rebalance p tw prices).2.trades, t.sym ≠ s) ∧
      qtyOf (rebalance p tw prices).1.holdings s = qtyOf p.holdings s ∧
      (∀ q, getPortfolioValue { p with holdings := setQty p.holdings s q }
          prices = getPortfolioValue p prices)) ∧
    (∀ t ∈ (rebalance p tw prices).2.trades,
      t.cost = |(t.qty : ℚ)| * t.price * p.transactionCost ∧ t.qty ≠ 0 ∧
      t.value = (t.qty : ℚ) * t.price) ∧
    (rebalance p tw prices).1.cash = p.cash -
      (((rebalance p tw prices).2.trades.map Trade.value).sum +
        ((rebalance p tw prices).2.trades.map Trade.cost).sum) ∧
    (rebalance p tw prices).2.totalCost =
      ((rebalance p tw prices).2.trades.map Trade.cost).sum := by
  have hpr : ∀ e ∈ targetQuantities tw prices (getPortfolioValue p prices),
      priceOf prices e.1 = some e.2.1 := by
    intro e he
    exact (mem_targetQuantities he).1
  have hnodtq : keysNodup (targetQuantities tw prices (getPortfolioValue p prices)) := by
    unfold keysNodup at hnodT ⊢
    exact (keys_targetQuantities_sublist tw prices _).nodup hnodT
  refine ⟨?_, ?_, ?_, rfl, rfl⟩
  · intro s w pr hmem hprs
    have htq := @mem_targetQuantities_intro _ _ (getPortfolioValue p prices) _ _ _ hmem hprs
    exact applyTrades_qty p.transactionCost _ p.holdings hnodtq htq
  · intro s hnone
    have hnotin : s ∉ (targetQuantities tw prices
        (getPortfolioValue p prices)).map Prod.fst := by
      intro hin
      obtain ⟨e, he, hfst⟩ := List.mem_map.mp hin
      have := hpr e he
      rw [hfst] at this
      rw [this] at hnone
      cases hnone
    refine ⟨?_, ?_, ?_⟩
    · intro t ht hts
      obtain ⟨-, -, -, hsym, hpt⟩ :=
        applyTrades_trades p.transactionCost prices _ p.holdings hpr t ht
      rw [hts] at hsym
      exact hnotin hsym
    · exact applyTrades_qty_untouched p.transactionCost _ p.holdings hnotin
    · intro q
      show p.cash + holdingsValue (setQty p.holdings s q) prices =
        p.cash + holdingsValue p.holdings prices
      rw [holdingsValue_setQty_none hnone]
  · intro t ht
    obtain ⟨h1, h2, h3, -, -⟩ :=
      applyTrades_trades p.transactionCost prices _ p.holdings hpr t ht
    exact ⟨h1, h2, h3⟩

/-- Witness for C4 at a concrete ledger, target-weight vector, and price
vector (asset 2 has a missing price). -/
theorem ledger_rebalance_accounting_witness :
    (∀ s w pr, (s, w) ∈ [(0, (1:ℚ)/2), (1, 1/4), (2, 1/4)] →
      priceOf [(0, some 10), (1, some 5), (2, none)] s = some pr →
      qtyOf (rebalance ⟨1000, 1/1000, 1000, [(0, 2)]⟩
          [(0, (1:ℚ)/2), (1, 1/4), (2, 1/4)]
          [(0, some 10), (1, some 5), (2, none)]).1.holdings s =
        ratTrunc (w * getPortfolioValue ⟨1000, 1/1000, 1000, [(0, 2)]⟩
          [(0, some 10), (1, some 5), (2, none)] / pr)) ∧
    (∀ s, priceOf [(0, some 10), (1, some 5), (2, none)] s = none →
      (∀ t ∈ (rebalance ⟨1000, 1/1000, 1000, [(0, 2)]⟩
          [(0, (1:ℚ)/2), (1, 1/4), (2, 1/4)]
          [(0, some 10), (1, some 5), (2, none)]).2.trades, t.sym ≠ s) ∧
      qtyOf (rebalance ⟨1000, 1/1000, 1000, [(0, 2)]⟩
          [(0, (1:ℚ)/2), (1, 1/4), (2, 1/4)]
          [(0, some 10), (1, some 5), (2, none)]).1.holdings s =
        qtyOf (Ledger.holdings ⟨1000, 1/1000, 1000, [(0, 2)]⟩) s ∧
      (∀ q, getPortfolioValue { (⟨1000, 1/1000, 1000, [(0, 2)]⟩ : Ledger) with
          holdings := setQty [(0, 2)] s q }
          [(0, some 10), (1, some 5), (2, none)] =
        getPortfolioValue ⟨1000, 1/1000, 1000, [(0, 2)]⟩
          [(0, some 10), (1, some 5), (2, none)])) ∧
    (∀ t ∈ (rebalance ⟨1000, 1/1000, 1000, [(0, 2)]⟩
        [(0, (1:ℚ)/2), (1, 1/4), (2, 1/4)]
        [(0, some 10), (1, some 5), (2, none)]).2.trades,
      t.cost = |(t.qty : ℚ)| * t.price * (1/1000) ∧ t.qty ≠ 0 ∧
      t.value = (t.qty : ℚ) * t.price) ∧
    (rebalance ⟨1000, 1/1000, 1000, [(0, 2)]⟩
        [(0, (1:ℚ)/2), (1, 1/4), (2, 1/4)]
        [(0, some 10), (1, some 5), (2, none)]).1.cash = 1000 -
      (((rebalance ⟨1000, 1/1000, 1000, [(0, 2)]⟩
          [(0, (1:ℚ)/2), (1, 1/4), (2, 1/4)]
          [(0, some 10), (1, some 5), (2, none)]).2.trades.map Trade.value).sum +
        ((rebalance ⟨1000, 1/1000, 1000, [(0, 2)]⟩
          [(0, (1:ℚ)/2), (1, 1/4), (2, 1/4)]
          [(0, some 10), (1, some 5), (2, none)]).2.trades.map Trade.cost).sum) ∧
    (rebalance ⟨1000, 1/1000, 1000, [(0, 2)]⟩
        [(0, (1:ℚ)/2), (1, 1/4), (2, 1/4)]
        [(0, some 10), (1, some 5), (2, none)]).2.totalCost =
      ((rebalance ⟨1000, 1/1000, 1000, [(0, 2)]⟩
        [(0, (1:ℚ)/2), (1, 1/4), (2, 1/4)]
        [(0, some 10), (1, some 5), (2, none)]).2.trades.map Trade.cost).sum :=
  ledger_rebalance_accounting ⟨1000, 1/1000, 1000, [(0, 2)]⟩
    [(0, (1:ℚ)/2), (1, 1/4), (2, 1/4)] [(0, some 10), (1, some 5), (2, none)]
    (by decide)

/-- C9: rebalancing conserves portfolio value up to the transaction cost of
the event: valued at the same prices, the portfolio value immediately after
`rebalance` equals the value immediately before minus the event's total
cost (every traded symbol has a valid price by construction of the trade
list). -/
theorem ledger_rebalance_conserves_value (p : Ledger) (tw : List (ℕ × ℚ))
    (prices : List (ℕ × Option ℚ)) (hnodH : keysNodup p.holdings) :
    getPortfolioValue (rebalance p tw prices).1 prices =
      getPortfolioValue p prices - (rebalance p tw prices).2.totalCost := by
  have hpr : ∀ e ∈ targetQuantities tw prices (getPortfolioValue p prices),
      priceOf prices e.1 = some e.2.1 := by
    intro e he
    exact (mem_targetQuantities he).1
  obtain ⟨-, hval⟩ :=
    applyTrades_correct p.transactionCost prices _ p.holdings hnodH hpr
  show (rebalance p tw prices).1.cash +
      holdingsValue (rebalance p tw prices).1.holdings prices = _
  have hcash : (rebalance p tw prices).1.cash = p.cash -
      ((((applyTrades p.transactionCost
          (targetQuantities tw prices (getPortfolioValue p prices))
          p.holdings).2).map Trade.value).sum +
        (((applyTrades p.transactionCost
          (targetQuantities tw prices (getPortfolioValue p prices))
          p.holdings).2).map Trade.cost).sum) := rfl
  have hhold : (rebalance p tw prices).1.holdings =
      (applyTrades p.transactionCost
        (targetQuantities tw prices (getPortfolioValue p prices))
        p.holdings).1 := rfl
  have htc : (rebalance p tw prices).2.totalCost =
      (((applyTrades p.transactionCost
        (targetQuantities tw prices (getPortfolioValue p prices))
        p.holdings).2).map Trade.cost).sum := rfl
  rw [hcash, hhold, htc, hval]
  unfold getPortfolioValue
  ring

/-- Witness for C9 at the same concrete ledger and prices as the C4
witness. -/
theorem ledger_rebalance_conserves_value_witness :
    getPortfolioValue (rebalance ⟨1000, 1/1000, 1000, [(0, 2)]⟩
        [(0, (1:ℚ)/2), (1, 1/4), (2, 1/4)]
        [(0, some 10), (1, some 5), (2, none)]).1
      [(0, some 10), (1, some 5), (2, none)] =
    getPortfolioValue ⟨1000, 1/1000, 1000, [(0, 2)]⟩
        [(0, some 10), (1, some 5), (2, none)] -
      (rebalance ⟨1000, 1/1000, 1000, [(0, 2)]⟩
        [(0, (1:ℚ)/2), (1, 1/4), (2, 1/4)]
        [(0, some 10), (1, some 5), (2, none)]).2.totalCost :=
  ledger_rebalance_conserves_value ⟨1000, 1/1000, 1000, [(0, 2)]⟩
    [(0, (1:ℚ)/2), (1, 1/4), (2, 1/4)] [(0, some 10), (1, some 5), (2, none)]
    (by decide)

/-! ### Lemmas about the single-index fit loop -/

theorem fitAsset_ok_none {ys xs : List (Option ℚ)}
    (h : fitAsset ys xs = .ok none) : (cleanPairs ys xs).length < 10 := by
  simp only [fitAsset] at h
  split at h
  next hlt => exact hlt
  next hge =>
    split at h
    · cases h
    · simp at h

theorem fitAsset_ok_some {ys xs : List (Option ℚ)} {p : FitParams}
    (h : fitAsset ys xs = .ok (some p)) : 10 ≤ (cleanPairs ys xs).length := by
  simp only [fitAsset] at h
  split at h
  next hlt => simp at h
  next hge => exact not_lt.mp hge

theorem fitLoop_cons_err {mkt col : List (Option ℚ)} {i : ℕ} {e : String}
    (h : fitAsset col mkt = .error e) (rest : List (List (Option ℚ))) :
    fitLoop mkt i (col :: rest) = .error e := by
  simp [fitLoop, h]

theorem fitLoop_cons_skip {mkt col : List (Option ℚ)} {i : ℕ}
    (h : fitAsset col mkt = .ok none) (rest : List (List (Option ℚ))) :
    fitLoop mkt i (col :: rest) =
      match fitLoop mkt (i + 1) rest with
      | .error e => .error e
      | .ok rw2 => .ok (rw2.1, i :: rw2.2) := by
  simp [fitLoop, h]

theorem fitLoop_cons_fit {mkt col : List (Option ℚ)} {i : ℕ} {p : FitParams}
    (h : fitAsset col mkt = .ok (some p)) (rest : List (List (Option ℚ))) :
    fitLoop mkt i (col :: rest) =
      match fitLoop mkt (i + 1) rest with
      | .error e => .error e
      | .ok rw2 => .ok ((i, p) :: rw2.1, rw2.2) := by
  simp [fitLoop, h]

theorem fitLoop_keys_ge (mkt : List (Option ℚ)) :
    ∀ (cols : List (List (Option ℚ))) (i : ℕ) (res : List (ℕ × FitParams))
      (warns : List ℕ), fitLoop mkt i cols = .ok (res, warns) →
      (∀ e ∈ res, i ≤ e.1) ∧ (∀ k ∈ warns, i ≤ k) := by
  intro cols
  induction cols with
  | nil =>
    intro i res warns h
    simp only [fitLoop, Except.ok.injEq, Prod.mk.injEq] at h
    obtain ⟨h1, h2⟩ := h
    subst h1
    subst h2
    exact ⟨by simp, by simp⟩
  | cons col rest ih =>
    intro i res warns h
    rcases hasset : fitAsset col mkt with e | op
    · rw [fitLoop_cons_err hasset] at h
      cases h
    rcases op with _ | p
    · rw [fitLoop_cons_skip hasset] at h
      rcases hrec : fitLoop mkt (i + 1) rest with e2 | rw2
      · rw [hrec] at h; cases h
      · rw [hrec] at h
        cases h
        obtain ⟨ih1, ih2⟩ := ih (i + 1) rw2.1 rw2.2 hrec
        refine ⟨fun e he => ?_, fun k hk => ?_⟩
        · have := ih1 e he; omega
        · rcases List.mem_cons.mp hk with hh | hh
          · omega
          · have := ih2 k hh; omega
    · rw [fitLoop_cons_fit hasset] at h
      rcases hrec : fitLoop mkt (i + 1) rest with e2 | rw2
      · rw [hrec] at h; cases h
      · rw [hrec] at h
        cases h
        obtain ⟨ih1, ih2⟩ := ih (i + 1) rw2.1 rw2.2 hrec
        refine ⟨fun e he => ?_, fun k hk => ?_⟩
        · rcases List.mem_cons.mp he with hh | hh
          · subst hh; simp
          · have := ih1 e hh; omega
        · have := ih2 k hk; omega

theorem fitLoop_spec (mkt : List (Option ℚ)) :
    ∀ (cols : List (List (Option ℚ))) (i : ℕ) (res : List (ℕ × FitParams))
      (warns : List ℕ), fitLoop mkt i cols = .ok (res, warns) →
      ∀ (j : ℕ) (col : List (Option ℚ)), cols.get? j = some col →
        ((alookup res (i + j)).isSome ↔ 10 ≤ (cleanPairs col mkt).length) ∧
        ((cleanPairs col mkt).length < 10 → (i + j) ∈ warns) := by
  intro cols
  induction cols with
  | nil =>
    intro i res warns h j col hj
    simp at hj
  | cons c rest ih =>
    intro i res warns h j col hj
    rcases hasset : fitAsset c mkt with e | op
    · rw [fitLoop_cons_err hasset] at h
      cases h
    rcases op with _ | p
    · rw [fitLoop_cons_skip hasset] at h
      rcases hrec : fitLoop mkt (i + 1) rest with e2 | rw2
      · rw [hrec] at h; cases h
      · rw [hrec] at h
        cases h
        cases j with
        | zero =>
          have hcol : c = col := by simpa using hj
          subst hcol
          have hlen := fitAsset_ok_none hasset
          constructor
          · have hge := (fitLoop_keys_ge mkt rest (i + 1) rw2.1 rw2.2 hrec).1
            have hnone : alookup rw2.1 (i + 0) = none := by
              rw [alookup_eq_none_iff]
              intro hin
              obtain ⟨e2, he2, hfst⟩ := List.mem_map.mp hin
              have := hge e2 he2
              omega
            rw [hnone]
            simp
            omega
          · intro _
            have : i + 0 = i := by omega
            rw [this]
            exact List.mem_cons_self _ _
        | succ j2 =>
          have hj2 : rest.get? j2 = some col := by simpa using hj
          have hrest := ih (i + 1) rw2.1 rw2.2 hrec j2 col hj2
          have harith : i + (j2 + 1) = i + 1 + j2 := by omega
          constructor
          · rw [harith]
            exact hrest.1
          · intro hlt
            rw [harith]
            exact List.mem_cons_of_mem _ (hrest.2 hlt)
    · rw [fitLoop_cons_fit hasset] at h
      rcases hrec : fitLoop mkt (i + 1) rest with e2 | rw2
      · rw [hrec] at h; cases h
      · rw [hrec] at h
        cases h
        cases j with
        | zero =>
          have hcol : c = col := by simpa using hj
          subst hcol
          have hlen := fitAsset_ok_some hasset
          constructor
          · have : alookup ((i, p) :: rw2.1) (i + 0) = some p := by
              simp [alookup]
            rw [this]
            simp
            omega
          · intro hlt
            omega
        | succ j2 =>
          have hj2 : rest.get? j2 = some col := by simpa using hj
          have hrest := ih (i + 1) rw2.1 rw2.2 hrec j2 col hj2
          have harith : i + (j2 + 1) = i + 1 + j2 := by omega
          constructor
          · have hne : ¬(i + (j2 + 1) = i) := by omega
            simp only [alookup, if_neg hne]
            rw [harith]
            exact hrest.1
          · intro hlt
            rw [harith]
            exact hrest.2 hlt

theorem alookup_map_snd {β γ : Type} (f : β → γ) :
    ∀ (l : List (ℕ × β)) (s : ℕ) (p : β), alookup l s = some p →
      alookup (l.map (fun e => (e.1, f e.2))) s = some (f p) := by
  intro l
  induction l with
  | nil => intro s p h; simp [alookup] at h
  | cons e t ih =>
    rcases e with ⟨k, v⟩
    intro s p h
    by_cases hk : s = k
    · simp only [alookup, if_pos hk, Option.some.injEq] at h
      subst h
      simp [alookup, hk]
    · simp only [alookup, if_neg hk] at h
      simp only [List.map_cons, alookup]
      rw [if_neg hk]
      exact ih s p h

/-! ### Claim theorems for the single-index model -/

/-- C7: in the per-asset loop of `SingleIndexModel.fit`, pairs with a
missing asset return or a missing factor return are dropped before the
regression; when the fit loop returns successfully, an asset is present in
the results exactly when at least 10 cleaned observations remain, and every
asset with fewer than 10 cleaned observations is recorded in the
(non-fatal) warning list while the remaining assets are still fitted. -/
theorem sim_fit_drop_and_skip (mkt : List (Option ℚ))
    (cols : List (List (Option ℚ))) (res : List (ℕ × FitParams))
    (warns : List ℕ) (hfit : fitLoop mkt 0 cols = .ok (res, warns)) :
    ∀ (j : ℕ) (col : List (Option ℚ)), cols.get? j = some col →
      ((alookup res j).isSome ↔ 10 ≤ (cleanPairs col mkt).length) ∧
      ((cleanPairs col mkt).length < 10 → j ∈ warns) := by
  intro j col hj
  have h := fitLoop_spec mkt cols 0 res warns hfit j col hj
  simpa using h

/-- Witness for C7 at a concrete two-asset fit: asset 0 has ten valid
observations and is fitted; asset 1 has five and is skipped with a
warning. -/
theorem sim_fit_drop_and_skip_witness :
    (((alookup [(0, witParams)] 0).isSome ↔
        10 ≤ (cleanPairs witCol0 witMkt).length) ∧
      ((cleanPairs witCol0 witMkt).length < 10 → 0 ∈ [1])) ∧
    (((alookup [(0, witParams)] 1).isSome ↔
        10 ≤ (cleanPairs witCol1 witMkt).length) ∧
      ((cleanPairs witCol1 witMkt).length < 10 → 1 ∈ [1])) := by
  have hfit : fitLoop witMkt 0 [witCol0, witCol1] = .ok ([(0, witParams)], [1]) := by
    norm_num [fitLoop, fitAsset, cleanPairs, linregress, listMean, witMkt, witCol0,
      witCol1, witParams, List.filterMap_cons]
  exact ⟨sim_fit_drop_and_skip witMkt [witCol0, witCol1] _ _ hfit 0 witCol0 rfl,
    sim_fit_drop_and_skip witMkt [witCol0, witCol1] _ _ hfit 1 witCol1 rfl⟩

/-- C10: `SingleIndexModel.get_expected_returns` does not depend on its
`risk_free_rate` argument: any two values give identical results, and the
result is always `alpha_i + beta_i * market_mean` per fitted asset. -/
theorem sim_expected_returns_ignore_risk_free
    (results : List (ℕ × FitParams)) (mm r1 r2 : ℚ) :
    getExpectedReturns results mm r1 = getExpectedReturns results mm r2 ∧
    (∀ s p, alookup results s = some p →
      ∃ er, getExpectedReturns results mm r1 = .ok er ∧
        alookup er s = some (p.alpha + p.beta * mm)) := by
  refine ⟨rfl, ?_⟩
  intro s p hp
  have hne : results ≠ [] := by
    intro hh
    subst hh
    simp [alookup] at hp
  refine ⟨results.map (fun e => (e.1, e.2.alpha + e.2.beta * mm)), ?_, ?_⟩
  · unfold getExpectedReturns
    rw [if_neg hne]
  · exact alookup_map_snd (fun q => q.alpha + q.beta * mm) results s p hp

/-- Witness for C10 at a concrete fitted result and two distinct risk-free
rates. -/
theorem sim_expected_returns_ignore_risk_free_witness :
    (getExpectedReturns [(0, ⟨1/100, 2, 1/1000, 1, 0, 30⟩)] (1/200) 0 =
      getExpectedReturns [(0, ⟨1/100, 2, 1/1000, 1, 0, 30⟩)] (1/200) 5) ∧
    (∃ er, getExpectedReturns [(0, ⟨1/100, 2, 1/1000, 1, 0, 30⟩)] (1/200) 0 =
        .ok er ∧
      alookup er 0 = some ((⟨1/100, 2, 1/1000, 1, 0, 30⟩ : FitParams).alpha +
        (⟨1/100, 2, 1/1000, 1, 0, 30⟩ : FitParams).beta * (1/200))) := by
  have h := sim_expected_returns_ignore_risk_free
    [(0, ⟨1/100, 2, 1/1000, 1, 0, 30⟩)] (1/200) 0 5
  exact ⟨h.1, h.2 0 ⟨1/100, 2, 1/1000, 1, 0, 30⟩ (by simp [alookup])⟩

/-! ### Backtester: per-date fallback and run-abort behaviour (claim C2) -/

end EGP
